import Mathlib

/-!
The package `httperror`: the RFC 7807 style error value and its wire form.

A shallow embedding of `errors.go` (package `httperror`).

Conventions of the embedding:

* Go strings and byte slices are Lean `String`s (well-formed text); a nil
  byte slice is `none`.
* Go `int` is `Int`; on the 64-bit targets the package is built for, the values
  an `int` can hold are those of `-2^63 .. 2^63-1`.
* A Go `map[string]any` is an association list in iteration order, `none` being
  the nil map.  Go does not fix the order in which `range` visits a map, so a
  statement quantified over every list covers every iteration order.
* A pair of Go results `(x, err)` is a Lean pair of options; a run-time panic is
  the `panic` constructor of `Outcome`.
* `json.Marshal` and `json.Unmarshal` belong to the standard library, not to the
  package: the functions of the package take them as parameters.  The standard
  decoder has a model here, `stdUnmarshal`; the standard encoder has none, and
  what is proved about the default marshal function holds for every function.
-/

namespace Httperror

/-! ## Go values -/

/-- Go `error` values: an error with a message of its own, or an error built by
`fmt.Errorf` with the verb `%w`, which keeps the error it wraps. -/
inductive GoError where
  | leaf (msg : String)
  | wrapError (msg : String) (err : GoError)
  deriving DecidableEq

/-- The method `Error()` of an error: its message. -/
def GoError.Error : GoError → String
  | .leaf msg => msg
  | .wrapError msg _ => msg

/-- The method `Unwrap()` of an error: the error it wraps, if any. -/
def GoError.Unwrap : GoError → Option GoError
  | .leaf _ => none
  | .wrapError _ err => some err

/-- The call `fmt.Errorf(pre + "%w", err)` for a text `pre` in which every verb
has already been replaced by its argument. -/
def fmtErrorf (pre : String) (err : GoError) : GoError :=
  .wrapError (pre ++ err.Error) err

/-- Values of the Go type `any`, by dynamic type: the nil interface, `bool`,
`int`, `float64` (a finite value, held as the rational it denotes), `string`,
`[]any`, `map[string]any` and a function value. -/
inductive Any where
  | null
  | bool (b : Bool)
  | int (i : Int)
  | float64 (x : ℚ)
  | string (s : String)
  | slice (xs : List Any)
  | map (m : List (String × Any))
  | func

mutual
/-- Boolean equality of `any` values. -/
def Any.beq : Any → Any → Bool
  | .null, .null => true
  | .bool a, .bool b => a == b
  | .int a, .int b => a == b
  | .float64 a, .float64 b => a == b
  | .string a, .string b => a == b
  | .slice a, .slice b => Any.beqList a b
  | .map a, .map b => Any.beqEntries a b
  | .func, .func => true
  | _, _ => false
/-- Boolean equality of lists of `any` values. -/
def Any.beqList : List Any → List Any → Bool
  | [], [] => true
  | a :: as, b :: bs => Any.beq a b && Any.beqList as bs
  | _, _ => false
/-- Boolean equality of lists of map entries. -/
def Any.beqEntries : List (String × Any) → List (String × Any) → Bool
  | [], [] => true
  | (k, a) :: as, (l, b) :: bs => k == l && Any.beq a b && Any.beqEntries as bs
  | _, _ => false
end

mutual
theorem Any.eq_of_beq : ∀ (a b : Any), Any.beq a b = true → a = b
  | .null, b, h => by cases b <;> simp_all [Any.beq]
  | .bool a, b, h => by cases b <;> simp_all [Any.beq]
  | .int a, b, h => by cases b <;> simp_all [Any.beq]
  | .float64 a, b, h => by cases b <;> simp_all [Any.beq]
  | .string a, b, h => by cases b <;> simp_all [Any.beq]
  | .func, b, h => by cases b <;> simp_all [Any.beq]
  | .slice a, b, h => by
      cases b <;> simp_all [Any.beq]
      exact Any.eq_of_beqList _ _ h
  | .map a, b, h => by
      cases b <;> simp_all [Any.beq]
      exact Any.eq_of_beqEntries _ _ h
theorem Any.eq_of_beqList : ∀ (a b : List Any), Any.beqList a b = true → a = b
  | [], b, h => by cases b <;> simp_all [Any.beqList]
  | a :: as, b, h => by
      cases b with
      | nil => simp_all [Any.beqList]
      | cons b bs =>
        simp only [Any.beqList, Bool.and_eq_true] at h
        rw [Any.eq_of_beq a b h.1, Any.eq_of_beqList as bs h.2]
theorem Any.eq_of_beqEntries :
    ∀ (a b : List (String × Any)), Any.beqEntries a b = true → a = b
  | [], b, h => by cases b <;> simp_all [Any.beqEntries]
  | (k, a) :: as, b, h => by
      cases b with
      | nil => simp_all [Any.beqEntries]
      | cons b bs =>
        obtain ⟨l, b⟩ := b
        simp only [Any.beqEntries, Bool.and_eq_true, beq_iff_eq] at h
        rw [h.1.1, Any.eq_of_beq a b h.1.2, Any.eq_of_beqEntries as bs h.2]
end

mutual
theorem Any.beq_self : ∀ (a : Any), Any.beq a a = true
  | .null => by simp [Any.beq]
  | .bool a => by simp [Any.beq]
  | .int a => by simp [Any.beq]
  | .float64 a => by simp [Any.beq]
  | .string a => by simp [Any.beq]
  | .func => by simp [Any.beq]
  | .slice a => by simp [Any.beq, Any.beqList_self a]
  | .map a => by simp [Any.beq, Any.beqEntries_self a]
theorem Any.beqList_self : ∀ (a : List Any), Any.beqList a a = true
  | [] => by simp [Any.beqList]
  | a :: as => by simp [Any.beqList, Any.beq_self a, Any.beqList_self as]
theorem Any.beqEntries_self : ∀ (a : List (String × Any)), Any.beqEntries a a = true
  | [] => by simp [Any.beqEntries]
  | (k, a) :: as => by simp [Any.beqEntries, Any.beq_self a, Any.beqEntries_self as]
end

instance : DecidableEq Any := fun a b =>
  if h : Any.beq a b = true then isTrue (Any.eq_of_beq a b h)
  else isFalse (fun e => h (e ▸ Any.beq_self a))

/-- The name of the dynamic type of an `any` value, as the run time prints it. -/
def Any.typeName : Any → String
  | .null => "nil"
  | .bool _ => "bool"
  | .int _ => "int"
  | .float64 _ => "float64"
  | .string _ => "string"
  | .slice _ => "[]interface \x7b\x7d"
  | .map _ => "map[string]interface \x7b\x7d"
  | .func => "func()"

/-- A Go `map[string]any`: `none` is the nil map, `some l` a map whose entries
are those of `l`, in the order `range` visits them. -/
abbrev GoMap := Option (List (String × Any))

/-- The entries a `range` over the map visits: none for a nil map. -/
def GoMap.entries : GoMap → List (String × Any)
  | none => []
  | some l => l

/-- The lookup `m[k]` with the "comma ok" result: the value stored at `k`. -/
def GoMap.get? (m : GoMap) (k : String) : Option Any :=
  (m.entries.find? (fun p => p.1 == k)).map Prod.snd

/-- The index expression `m[k]`: the value stored at `k`, or the zero value of
`any` (the nil interface) when the key is absent or the map is nil. -/
def GoMap.index (m : GoMap) (k : String) : Any :=
  (m.get? k).getD .null

/-- The built-in `delete(m, k)`: removes the entry of `k`, and does nothing on a
nil map or an absent key. -/
def GoMap.delete (m : GoMap) (k : String) : GoMap :=
  m.map (fun l => l.filter (fun p => p.1 != k))

/-- The assignment `m[k] = v` on a non-nil map: replaces the value of an
existing key, adds the entry otherwise. -/
def assign : List (String × Any) → String → Any → List (String × Any)
  | [], k, v => [(k, v)]
  | (k', v') :: rest, k, v =>
    if k' == k then (k, v) :: rest else (k', v') :: assign rest k v

/-- What a call of a Go function does: it returns, or it panics with a message. -/
inductive Outcome (α : Type) where
  | ret (a : α)
  | panic (msg : String)
  deriving DecidableEq

/-- The type of the `marshal` argument of `ToJSON`, `func(any) ([]byte, error)`. -/
abbrev MarshalFn := Any → Option String × Option GoError

/-- The type of the `unmarshal` argument of `FromJSON`, `func([]byte, any)
error`, as `FromJSON` calls it: with the data and a pointer to a map.  The
function gets the map the pointer refers to and gives the map it leaves there
together with its error. -/
abbrev UnmarshalFn := String → GoMap → GoMap × Option GoError

/-- The conversion `string(d)` of a byte slice: empty for a nil slice. -/
def goString (d : Option String) : String := d.getD ""

/-! ## strconv.Itoa -/

/-- The decimal digit of a number below ten. -/
def digitChar (d : Nat) : Char := Char.ofNat (48 + d)

/-- The digits of `n` in base ten, most significant first, written in front of
`acc`; `fuel` bounds the number of digits. -/
def formatBits : Nat → Nat → List Char → List Char
  | 0, _, acc => acc
  | fuel + 1, n, acc =>
    if n < 10 then digitChar n :: acc
    else formatBits fuel (n / 10) (digitChar (n % 10) :: acc)

/-- The decimal representation of a natural number. -/
def formatNat (n : Nat) : List Char := formatBits (n + 1) n []

/-- The function `strconv.Itoa`: the decimal representation of an integer, with a
leading minus sign for a negative one. -/
def Itoa (i : Int) : String :=
  if i < 0 then String.mk ('-' :: formatNat i.natAbs) else String.mk (formatNat i.natAbs)

/-! ## The standard decoder

`json.Unmarshal` is a function of the standard library.  The model below
follows its documented behaviour for the one target `FromJSON` gives it, a
pointer to a `map[string]any`: the syntax of RFC 8259 checked from left to right,
then the value stored. -/

/-- The white space of JSON. -/
def isSpace (c : Char) : Bool := c == ' ' || c == '\t' || c == '\r' || c == '\n'

/-- The input without its leading white space. -/
def skipSpace : List Char → List Char
  | [] => []
  | c :: cs => if isSpace c then skipSpace cs else c :: cs

/-- Whether the character is a decimal digit. -/
def isDigit (c : Char) : Bool := 48 ≤ c.toNat && c.toNat ≤ 57

/-- The value of a decimal digit. -/
def digitValue (c : Char) : Nat := c.toNat - 48

/-- The number a sequence of decimal digits denotes. -/
def digitsValue (ds : List Char) : Nat := ds.foldl (fun a c => 10 * a + digitValue c) 0

/-- The value of a hexadecimal digit, if the character is one. -/
def hexValue (c : Char) : Option Nat :=
  if 48 ≤ c.toNat ∧ c.toNat ≤ 57 then some (c.toNat - 48)
  else if 97 ≤ c.toNat ∧ c.toNat ≤ 102 then some (c.toNat - 87)
  else if 65 ≤ c.toNat ∧ c.toNat ≤ 70 then some (c.toNat - 55)
  else none

/-- The hexadecimal digit of a number below sixteen, in lower case. -/
def hexDigit (d : Nat) : Char := if d < 10 then Char.ofNat (48 + d) else Char.ofNat (87 + d)

/-- The first byte of the UTF-8 encoding of a character. -/
def firstByte (c : Char) : Nat :=
  if c.toNat < 0x80 then c.toNat
  else if c.toNat < 0x800 then 0xC0 + c.toNat / 0x40
  else if c.toNat < 0x10000 then 0xE0 + c.toNat / 0x1000
  else 0xF0 + c.toNat / 0x40000

/-- The decoder's `quoteChar`, on the byte at which the scanner stops: the byte
between single quotes, written the way `strconv.Quote` writes it. -/
def quoteChar (c : Char) : String :=
  let b := firstByte c
  if b = 39 then "'\\''"
  else if b = 34 then "'\"'"
  else if b = 92 then "'\\\\'"
  else if b = 7 then "'\\a'"
  else if b = 8 then "'\\b'"
  else if b = 12 then "'\\f'"
  else if b = 10 then "'\\n'"
  else if b = 13 then "'\\r'"
  else if b = 9 then "'\\t'"
  else if b = 11 then "'\\v'"
  else if b < 32 ∨ b = 127 then String.mk ['\'', '\\', 'x', hexDigit (b / 16), hexDigit (b % 16), '\'']
  else String.mk ['\'', Char.ofNat b, '\'']

/-- The `*json.SyntaxError` of the scanner at the character `c`. -/
def syntaxError (c : Char) (context : String) : GoError :=
  .leaf ("invalid character " ++ quoteChar c ++ " " ++ context)

/-- The `*json.SyntaxError` of an input that ends too early. -/
def unexpectedEnd : GoError := .leaf "unexpected end of JSON input"

/-- The `*json.UnmarshalTypeError` of a JSON value that the Go type cannot hold. -/
def unmarshalTypeError (value : String) (goType : String) : GoError :=
  .leaf ("json: cannot unmarshal " ++ value ++ " into Go value of type " ++ goType)

/-- The states of the scanner inside a string literal: between characters, after
a backslash, and with `k` hexadecimal digits of a `\u` escape still to come. -/
inductive StringState where
  | inString
  | inStringEsc
  | inStringEscU (k : Nat)

/-- The scanner on a string literal whose opening quote has been read: the
characters between the quotes, escapes not yet decoded (in reverse in `acc`), and
the input after the closing quote. -/
def scanString : StringState → List Char → List Char → Except GoError (List Char × List Char)
  | .inString, [], _ => .error unexpectedEnd
  | .inStringEsc, [], _ => .error (syntaxError ' ' "in string escape code")
  | .inStringEscU _, [], _ => .error (syntaxError ' ' "in \\u hexadecimal character escape")
  | .inString, c :: cs, acc =>
    if c == '"' then .ok (acc.reverse, cs)
    else if c == '\\' then scanString .inStringEsc cs (c :: acc)
    else if c.toNat < 32 then .error (syntaxError c "in string literal")
    else scanString .inString cs (c :: acc)
  | .inStringEsc, c :: cs, acc =>
    if c == 'b' || c == 'f' || c == 'n' || c == 'r' || c == 't' || c == '\\' || c == '/'
        || c == '"' then
      scanString .inString cs (c :: acc)
    else if c == 'u' then scanString (.inStringEscU 4) cs (c :: acc)
    else .error (syntaxError c "in string escape code")
  | .inStringEscU k, c :: cs, acc =>
    if (hexValue c).isSome then
      scanString (if k ≤ 1 then .inString else .inStringEscU (k - 1)) cs (c :: acc)
    else .error (syntaxError c "in \\u hexadecimal character escape")

/-- The number four hexadecimal digits denote (`getu4` after the `\u`). -/
def getu4 (a b c d : Char) : Nat :=
  (((hexValue a).getD 0 * 16 + (hexValue b).getD 0) * 16 + (hexValue c).getD 0) * 16
    + (hexValue d).getD 0

/-- The character a one-letter escape stands for. -/
def unescape (c : Char) : Char :=
  if c == 'b' then Char.ofNat 8
  else if c == 'f' then Char.ofNat 12
  else if c == 'n' then '\n'
  else if c == 'r' then '\r'
  else if c == 't' then '\t'
  else c

/-- The four hexadecimal digits of a `\u` escape at the start of the input
(`getu4`): the number they denote, if the input starts with such an escape. -/
def getu4At : List Char → Option Nat
  | b :: u :: h1 :: h2 :: h3 :: h4 :: _ =>
    if b == '\\' ∧ u == 'u' ∧ (hexValue h1).isSome ∧ (hexValue h2).isSome
        ∧ (hexValue h3).isSome ∧ (hexValue h4).isSome then
      some (getu4 h1 h2 h3 h4)
    else none
  | _ => none

/-- The escape whose backslash has just been read: the character it stands for
and the number of characters of the input it takes.  A `\u` escape of a high
surrogate followed by the `\u` escape of a low one stands for the character the
pair encodes; any other surrogate for U+FFFD. -/
def escapeAt : List Char → Char × Nat
  | [] => (Char.ofNat 0xFFFD, 0)
  | e :: rest =>
    if e != 'u' then (unescape e, 1)
    else
      match rest with
      | h1 :: h2 :: h3 :: h4 :: rest2 =>
        let rr := getu4 h1 h2 h3 h4
        if 0xD800 ≤ rr ∧ rr < 0xE000 then
          match getu4At rest2 with
          | some rr1 =>
            if rr < 0xDC00 ∧ 0xDC00 ≤ rr1 ∧ rr1 < 0xE000 then
              (Char.ofNat ((rr - 0xD800) * 0x400 + (rr1 - 0xDC00) + 0x10000), 11)
            else (Char.ofNat 0xFFFD, 5)
          | none => (Char.ofNat 0xFFFD, 5)
        else (Char.ofNat rr, 5)
      | _ => (Char.ofNat 0xFFFD, 1)

/-- The decoder's `unquote` on the inside of a scanned string literal, with
`skip` characters of an escape already decoded still to pass over. -/
def unquoteAux : Nat → List Char → List Char
  | _, [] => []
  | skip + 1, _ :: rest => unquoteAux skip rest
  | 0, c :: rest =>
    if c != '\\' then c :: unquoteAux 0 rest
    else (escapeAt rest).1 :: unquoteAux (escapeAt rest).2 rest

/-- The decoder's `unquote` on the inside of a scanned string literal: every
escape replaced by the character it stands for. -/
def unquote (raw : List Char) : List Char := unquoteAux 0 raw

/-- The longest run of decimal digits at the start of the input, and what
follows it. -/
def takeDigits : List Char → List Char × List Char
  | [] => ([], [])
  | c :: cs => if isDigit c then ((c :: (takeDigits cs).1), (takeDigits cs).2) else ([], c :: cs)

/-- A scanned number literal: its sign, the digits before the point, the digits
after it, and the sign and the digits of its exponent. -/
structure NumLit where
  neg : Bool
  intPart : List Char
  fracPart : List Char
  expNeg : Bool
  expPart : List Char
  deriving DecidableEq

/-- The scanner on the digits of the exponent of a number literal, its letter and
its sign read. -/
def scanExponentDigits (expNeg : Bool) (cs : List Char) :
    Except GoError (Bool × List Char × List Char) :=
  match cs with
  | [] => .error (syntaxError ' ' "in exponent of numeric literal")
  | d :: _ =>
    if isDigit d then .ok (expNeg, (takeDigits cs).1, (takeDigits cs).2)
    else .error (syntaxError d "in exponent of numeric literal")

/-- The scanner on the exponent of a number literal, the input standing after the
digits of the integer part and of the fraction: the sign and the digits of the
exponent (none when there is no exponent) and the input after them. -/
def scanExponent (cs : List Char) : Except GoError (Bool × List Char × List Char) :=
  match cs with
  | [] => .ok (false, [], [])
  | c :: rest =>
    if c == 'e' || c == 'E' then
      match rest with
      | [] => .error (syntaxError ' ' "in exponent of numeric literal")
      | s :: rest1 =>
        if s == '+' then scanExponentDigits false rest1
        else if s == '-' then scanExponentDigits true rest1
        else scanExponentDigits false rest
    else .ok (false, [], c :: rest)

/-- The scanner on the fraction and the exponent of a number literal, the input
standing after the digits of the integer part. -/
def scanFraction (cs : List Char) : Except GoError (List Char × Bool × List Char × List Char) :=
  match cs with
  | [] => .ok ([], false, [], [])
  | c :: rest =>
    if c == '.' then
      match rest with
      | [] => .error (syntaxError ' ' "after decimal point in numeric literal")
      | d :: _ =>
        if isDigit d then
          match scanExponent (takeDigits rest).2 with
          | .error e => .error e
          | .ok x => .ok ((takeDigits rest).1, x)
        else .error (syntaxError d "after decimal point in numeric literal")
    else
      match scanExponent (c :: rest) with
      | .error e => .error e
      | .ok x => .ok ([], x)

/-- The scanner on a number literal whose sign, if any, has been read: a zero, or
a digit other than zero and the digits that follow it, then the fraction and the
exponent. -/
def scanInteger (neg : Bool) (cs : List Char) : Except GoError (NumLit × List Char) :=
  match cs with
  | [] => .error (syntaxError ' ' "in numeric literal")
  | c :: rest =>
    if c == '0' then
      match scanFraction rest with
      | .error e => .error e
      | .ok (frac, expNeg, exp, rest1) => .ok (⟨neg, [c], frac, expNeg, exp⟩, rest1)
    else if isDigit c then
      match scanFraction (takeDigits cs).2 with
      | .error e => .error e
      | .ok (frac, expNeg, exp, rest1) => .ok (⟨neg, (takeDigits cs).1, frac, expNeg, exp⟩, rest1)
    else .error (syntaxError c "in numeric literal")

/-- The scanner on a number literal; the input starts with a minus sign or a
digit. -/
def scanNumber (cs : List Char) : Except GoError (NumLit × List Char) :=
  match cs with
  | [] => .error (syntaxError ' ' "in numeric literal")
  | c :: rest => if c == '-' then scanInteger true rest else scanInteger false cs

/-- The scanner on the rest of the literals `true`, `false` and `null`, the first
letter read: the input after the word `name`, whose letters still to come are
the first argument. -/
def expectWord (name : String) : List Char → List Char → Except GoError (List Char)
  | [], cs => .ok cs
  | w :: _, [] =>
    .error (syntaxError ' ' ("in literal " ++ name ++ " (expecting '" ++ String.mk [w] ++ "')"))
  | w :: ws, c :: cs =>
    if c == w then expectWord name ws cs
    else .error (syntaxError c ("in literal " ++ name ++ " (expecting '" ++ String.mk [w] ++ "')"))

/-- The position of the highest bit of `n` that is set, `fuel` bounding the
number of bits. -/
def log2Aux : Nat → Nat → Nat
  | 0, _ => 0
  | fuel + 1, n => if n < 2 then 0 else log2Aux fuel (n / 2) + 1

/-- The integer part of the binary logarithm of a positive number. -/
def ilog2 (n : Nat) : Nat := log2Aux n n

/-- The `float64` nearest to the positive rational `n / d` (`d` positive), ties
going to the even significand, as `strconv.ParseFloat` rounds; `none` when the
result is beyond the largest `float64`. -/
def roundFloat64 (n d : Nat) : Option ℚ :=
  if n = 0 then some 0
  else
    let e0 : Int := (ilog2 n : Int) - (ilog2 d : Int)
    let above : Bool := if 0 ≤ e0 then d * 2 ^ e0.toNat ≤ n else d ≤ n * 2 ^ (-e0).toNat
    let e : Int := if above then e0 else e0 - 1
    let p : Int := max (e - 52) (-1074)
    let num : Nat := if 0 ≤ p then n else n * 2 ^ (-p).toNat
    let den : Nat := if 0 ≤ p then d * 2 ^ p.toNat else d
    let q := num / den
    let r := num % den
    let m := if 2 * r < den then q else if den < 2 * r then q + 1 else if q % 2 = 0 then q else q + 1
    if 0 ≤ p then
      if m * 2 ^ p.toNat < 2 ^ 1024 then some ((m * 2 ^ p.toNat : Nat) : ℚ) else none
    else some ((m : ℚ) / ((2 ^ (-p).toNat : Nat) : ℚ))

/-- The decimal exponent of a number literal once its fraction digits are read as
part of the integer. -/
def NumLit.exponent (lit : NumLit) : Int :=
  (if lit.expNeg then -(digitsValue lit.expPart : Int) else (digitsValue lit.expPart : Int))
    - (lit.fracPart.length : Int)

/-- The decoder's `convertNumber`: the `float64` of a number literal, or the
error of a literal beyond the range of `float64`; `text` is the literal. -/
def convertNumber (lit : NumLit) (text : List Char) : Except GoError ℚ :=
  let mant := digitsValue (lit.intPart ++ lit.fracPart)
  let rounded :=
    if 0 ≤ lit.exponent then roundFloat64 (mant * 10 ^ lit.exponent.toNat) 1
    else roundFloat64 mant (10 ^ (-lit.exponent).toNat)
  match rounded with
  | none => .error (unmarshalTypeError ("number " ++ String.mk text) "float64")
  | some q => .ok (if lit.neg then -q else q)

/-- The decoder keeps the first error it meets while it stores values. -/
def saveError (saved : Option GoError) (err : GoError) : Option GoError :=
  match saved with
  | none => some err
  | some e => some e

/-- The deepest nesting of arrays and objects the scanner accepts. -/
def maxNestingDepth : Nat := 10000

/-- The error of a run of the decoder that used up its fuel.  It stands apart
from every error of the input (those have a message of their own and wrap
nothing), and `stdUnmarshal` gives more fuel than any input needs
(`stdUnmarshal_sound`). -/
def outOfFuel : GoError := .wrapError "json: out of fuel" (.leaf "json: out of fuel")

mutual
/-- The decoder on a JSON value that goes into an `any`, the input standing at
its first character, inside `depth` arrays and objects: the Go value, the input
after the value and the first error saved. -/
def decodeValue : Nat → Nat → List Char → Option GoError →
    Except GoError (Any × List Char × Option GoError)
  | 0, _, _, _ => .error outOfFuel
  | fuel + 1, depth, cs, saved =>
    match cs with
    | [] => .error unexpectedEnd
    | c :: rest =>
      if c == '"' then
        match scanString .inString rest [] with
        | .error e => .error e
        | .ok (raw, rest1) => .ok (.string (String.mk (unquote raw)), rest1, saved)
      else if c == '-' || isDigit c then
        match scanNumber cs with
        | .error e => .error e
        | .ok (lit, rest1) =>
          match convertNumber lit (cs.take (cs.length - rest1.length)) with
          | .error e => .ok (.null, rest1, saveError saved e)
          | .ok x => .ok (.float64 x, rest1, saved)
      else if c == '\x7b' then
        if maxNestingDepth ≤ depth then .error (syntaxError c "exceeded max depth")
        else
          match skipSpace rest with
          | [] => .error unexpectedEnd
          | c1 :: rest1 =>
            if c1 == '\x7d' then .ok (.map [], rest1, saved)
            else
              match decodeMembers fuel (depth + 1) (c1 :: rest1) [] saved with
              | .error e => .error e
              | .ok (m, rest2, saved1) => .ok (.map m, rest2, saved1)
      else if c == '[' then
        if maxNestingDepth ≤ depth then .error (syntaxError c "exceeded max depth")
        else
          match skipSpace rest with
          | [] => .error unexpectedEnd
          | c1 :: rest1 =>
            if c1 == ']' then .ok (.slice [], rest1, saved)
            else
              match decodeElements fuel (depth + 1) (c1 :: rest1) [] saved with
              | .error e => .error e
              | .ok (xs, rest2, saved1) => .ok (.slice xs, rest2, saved1)
      else if c == 't' then
        match expectWord "true" ['r', 'u', 'e'] rest with
        | .error e => .error e
        | .ok rest1 => .ok (.bool true, rest1, saved)
      else if c == 'f' then
        match expectWord "false" ['a', 'l', 's', 'e'] rest with
        | .error e => .error e
        | .ok rest1 => .ok (.bool false, rest1, saved)
      else if c == 'n' then
        match expectWord "null" ['u', 'l', 'l'] rest with
        | .error e => .error e
        | .ok rest1 => .ok (.null, rest1, saved)
      else .error (syntaxError c "looking for beginning of value")
/-- The decoder on the members of an object, the input standing at the first
character of a key: the entries `m` with the members stored in them, the input
after the closing brace and the first error saved. -/
def decodeMembers : Nat → Nat → List Char → List (String × Any) → Option GoError →
    Except GoError (List (String × Any) × List Char × Option GoError)
  | 0, _, _, _, _ => .error outOfFuel
  | fuel + 1, depth, cs, m, saved =>
    match cs with
    | [] => .error unexpectedEnd
    | c :: rest =>
      if c != '"' then .error (syntaxError c "looking for beginning of object key string")
      else
        match scanString .inString rest [] with
        | .error e => .error e
        | .ok (raw, rest1) =>
          match skipSpace rest1 with
          | [] => .error unexpectedEnd
          | c1 :: rest2 =>
            if c1 != ':' then .error (syntaxError c1 "after object key")
            else
              match decodeValue fuel depth (skipSpace rest2) saved with
              | .error e => .error e
              | .ok (v, rest3, saved1) =>
                match skipSpace rest3 with
                | [] => .error unexpectedEnd
                | c2 :: rest4 =>
                  if c2 == ',' then
                    decodeMembers fuel depth (skipSpace rest4)
                      (assign m (String.mk (unquote raw)) v) saved1
                  else if c2 == '\x7d' then
                    .ok (assign m (String.mk (unquote raw)) v, rest4, saved1)
                  else .error (syntaxError c2 "after object key:value pair")
/-- The decoder on the elements of an array, the input standing at the first
character of an element: the elements read so far (`xs`) and those that follow,
the input after the closing bracket and the first error saved. -/
def decodeElements : Nat → Nat → List Char → List Any → Option GoError →
    Except GoError (List Any × List Char × Option GoError)
  | 0, _, _, _, _ => .error outOfFuel
  | fuel + 1, depth, cs, xs, saved =>
    match decodeValue fuel depth cs saved with
    | .error e => .error e
    | .ok (v, rest, saved1) =>
      match skipSpace rest with
      | [] => .error unexpectedEnd
      | c :: rest1 =>
        if c == ',' then decodeElements fuel depth (skipSpace rest1) (xs ++ [v]) saved1
        else if c == ']' then .ok (xs ++ [v], rest1, saved1)
        else .error (syntaxError c "after array element")
end

/-- The JSON kind of the value that starts with the character `c`, as the
decoder names it in a type error. -/
def jsonKindAt (c : Char) : String :=
  if c == '"' then "string"
  else if c == '[' then "array"
  else if c == 't' || c == 'f' then "bool"
  else "number"

/-- Modelled from the spec: the "standard structured-decoding function" the
unmarshal argument defaults to, `json.Unmarshal` of the standard library, whose
source is not part of the repository, on a pointer to a `map[string]any` that
holds `v`.  A syntax error leaves the map as it is; a JSON object is stored
member by member in the map (a new one if `v` is nil), strings as `string`,
numbers as `float64`, arrays as `[]any`, objects as `map[string]any`, `null` as
nil, a key that comes twice keeping its last value; a top-level `null` sets the
map to nil; any other top-level value is a type error. -/
def stdUnmarshal : UnmarshalFn := fun data v =>
  let cs := skipSpace data.data
  let fuel := 2 * data.data.length + 2
  match cs with
  | [] => (v, some unexpectedEnd)
  | c :: rest =>
    if c == '\x7b' then
      let members : Except GoError (List (String × Any) × List Char × Option GoError) :=
        match skipSpace rest with
        | [] => .error unexpectedEnd
        | c1 :: rest1 =>
          if c1 == '\x7d' then .ok (v.entries, rest1, none)
          else decodeMembers fuel 1 (c1 :: rest1) v.entries none
      match members with
      | .error e => (v, some e)
      | .ok (m, rest2, saved) =>
        match skipSpace rest2 with
        | c2 :: _ => (v, some (syntaxError c2 "after top-level value"))
        | [] => (some m, saved)
    else
      match decodeValue fuel 0 cs none with
      | .error e => (v, some e)
      | .ok (_, rest2, _) =>
        match skipSpace rest2 with
        | c2 :: _ => (v, some (syntaxError c2 "after top-level value"))
        | [] =>
          if c == 'n' then (none, none)
          else (v, some (unmarshalTypeError (jsonKindAt c) "map[string]interface \x7b\x7d"))

/-! ## The package -/

/-- The struct `HttpError`. -/
structure HttpError where
  Type_ : String
  Title : String
  Status : Int
  Detail : String
  Instance : String
  ExtensionMembers : GoMap
  deriving DecidableEq

/-- The function `New`. -/
def New (title : String) (status : Int) (typeUrl : String) : HttpError :=
  { Title := title, Type_ := typeUrl, Status := status,
    Detail := "", Instance := "", ExtensionMembers := none }

/-- The method `WithDetail`: the receiver after the assignment. -/
def HttpError.WithDetail (e : HttpError) (detail : String) : HttpError :=
  { e with Detail := detail }

/-- The method `WithInstance`: the receiver after the assignment. -/
def HttpError.WithInstance (e : HttpError) (instance_ : String) : HttpError :=
  { e with Instance := instance_ }

/-- The method `Error`. -/
def HttpError.Error (e : HttpError) : String :=
  let builder := ""
  let builder := builder ++ e.Title
  let builder := builder ++ " on "
  let builder := builder ++ e.Instance
  let builder := builder ++ " reference "
  let builder := builder ++ e.Type_
  builder

/-- The `for k, v := range e.ExtensionMembers` loop of `ToJSON` over the entries
still to visit: the buffer after the loop, or the error the loop returns with. -/
def ToJSON.loop (marshal : MarshalFn) : List (String × Any) → String → Except GoError String
  | [], builder => .ok builder
  | (k, v) :: rest, builder =>
    let builder := builder ++ k
    let builder := builder ++ ":"
    match marshal v with
    | (_, some err) => .error (fmtErrorf ("cannot marshal extension member " ++ k ++ ": ") err)
    | (d, none) =>
      let builder := builder ++ goString d
      let builder := builder ++ ","
      ToJSON.loop marshal rest builder

/-- The method `ToJSON`; `jsonMarshal` is `json.Marshal`. -/
def HttpError.ToJSON (jsonMarshal : MarshalFn) (e : HttpError) (marshal : Option MarshalFn) :
    Option String × Option GoError :=
  let marshal := match marshal with
    | none => jsonMarshal
    | some f => f
  let builder := ""
  let builder := builder ++ "\x7b"
  let builder := builder ++ "\"type\":"
  let builder := builder ++ ("\"" ++ e.Type_ ++ "\"")
  let builder := builder ++ ","
  let builder := builder ++ "\"title\":"
  let builder := builder ++ ("\"" ++ e.Title ++ "\"")
  let builder := builder ++ ","
  let builder := builder ++ "\"status\":"
  let builder := builder ++ Itoa e.Status
  let builder := builder ++ ","
  let builder := builder ++ "\"detail\":"
  let builder := builder ++ ("\"" ++ e.Detail ++ "\"")
  let builder := builder ++ ","
  let builder := builder ++ "\"instance\":"
  let builder := builder ++ ("\"" ++ e.Instance ++ "\"")
  match ToJSON.loop marshal e.ExtensionMembers.entries builder with
  | .error err => (none, some err)
  | .ok builder =>
    let builder := builder ++ "\x7d"
    (some builder, none)

/-- The type assertion `x.(string)`: the string `x` holds, or the panic of the
run time when the dynamic type of `x` is not `string`. -/
def assertString (x : Any) : Outcome String :=
  match x with
  | .string s => .ret s
  | x => .panic ("interface conversion: interface \x7b\x7d is " ++ x.typeName ++ ", not string")

/-- The type assertion `x.(float64)`. -/
def assertFloat64 (x : Any) : Outcome ℚ :=
  match x with
  | .float64 f => .ret f
  | x => .panic ("interface conversion: interface \x7b\x7d is " ++ x.typeName ++ ", not float64")

/-- The number `x` without its fractional part (rounded toward zero). -/
def truncate (x : ℚ) : Int := x.num.tdiv x.den

/-- The conversion `int(f)` of a `float64`: the fraction is discarded; when the
result does not fit the 64-bit `int` the language leaves the value to the
implementation, and this is the one of amd64, the smallest `int`. -/
def intOfFloat64 (x : ℚ) : Int :=
  if -2 ^ 63 ≤ truncate x ∧ truncate x < 2 ^ 63 then truncate x else -2 ^ 63

/-- The function `FromJSON`; `jsonUnmarshal` is `json.Unmarshal`.  The five
type assertions are evaluated in the order of the source. -/
def FromJSON (jsonUnmarshal : UnmarshalFn) (data : String) (unmarshal : Option UnmarshalFn) :
    Outcome (Option HttpError × Option GoError) :=
  let unmarshal := match unmarshal with
    | none => jsonUnmarshal
    | some f => f
  let v : GoMap := some []
  match unmarshal data v with
  | (_, some err) => .ret (none, some (fmtErrorf "cannot unmarshal http error: " err))
  | (v, none) =>
    match assertString (v.index "title") with
    | .panic msg => .panic msg
    | .ret title =>
    match assertFloat64 (v.index "status") with
    | .panic msg => .panic msg
    | .ret status =>
    match assertString (v.index "type") with
    | .panic msg => .panic msg
    | .ret type_ =>
    match assertString (v.index "detail") with
    | .panic msg => .panic msg
    | .ret detail =>
    match assertString (v.index "instance") with
    | .panic msg => .panic msg
    | .ret instance_ =>
      let he : HttpError :=
        { Title := title, Status := intOfFloat64 status, Type_ := type_, Detail := detail,
          Instance := instance_, ExtensionMembers := none }
      let v := v.delete "title"
      let v := v.delete "status"
      let v := v.delete "type"
      let v := v.delete "detail"
      let v := v.delete "instance"
      let he := { he with ExtensionMembers := v }
      .ret (some he, none)

/-- The statements of `FromJSON` after the call of `unmarshal`, as a function of
what the call leaves in `v` and of its error. -/
def afterUnmarshal (r : GoMap × Option GoError) : Outcome (Option HttpError × Option GoError) :=
  match r with
  | (_, some err) => .ret (none, some (fmtErrorf "cannot unmarshal http error: " err))
  | (v, none) =>
    match assertString (v.index "title") with
    | .panic msg => .panic msg
    | .ret title =>
    match assertFloat64 (v.index "status") with
    | .panic msg => .panic msg
    | .ret status =>
    match assertString (v.index "type") with
    | .panic msg => .panic msg
    | .ret type_ =>
    match assertString (v.index "detail") with
    | .panic msg => .panic msg
    | .ret detail =>
    match assertString (v.index "instance") with
    | .panic msg => .panic msg
    | .ret instance_ =>
      .ret (some
        { Title := title, Status := intOfFloat64 status, Type_ := type_, Detail := detail,
          Instance := instance_,
          ExtensionMembers :=
            ((((v.delete "title").delete "status").delete "type").delete "detail").delete
              "instance" }, none)

/-- The text `ToJSON` writes before the loop over the extension members: the
opening brace and the five fixed fields. -/
def fixedFields (e : HttpError) : String :=
  "\x7b\"type\":\"" ++ e.Type_ ++ "\",\"title\":\"" ++ e.Title ++ "\",\"status\":"
    ++ Itoa e.Status ++ ",\"detail\":\"" ++ e.Detail ++ "\",\"instance\":\"" ++ e.Instance ++ "\""

/-- What the loop of `ToJSON` writes for the entries `l` when `marshal` has no
error on any of them: for each entry the key, a colon, the bytes of `marshal`
and a comma. -/
def entriesText (marshal : MarshalFn) : List (String × Any) → String
  | [] => ""
  | (k, v) :: rest => k ++ ":" ++ goString (marshal v).1 ++ "," ++ entriesText marshal rest

/-- The five keys of the fixed fields. -/
def reservedKeys : List String := ["title", "status", "type", "detail", "instance"]

/-- A marshal function for the examples: it has an error on a function value
and writes `null`, numbers and strings the simplest way. -/
def exampleMarshal : MarshalFn := fun v =>
  match v with
  | .func => (none, some (.leaf "json: unsupported type: func()"))
  | .int i => (some (Itoa i), none)
  | .string s => (some ("\"" ++ s ++ "\""), none)
  | _ => (some "null", none)

/-- An unmarshal function for the examples: whatever the data, it leaves a map
with the five keys whose status is a Go `int`. -/
def exampleUnmarshal : UnmarshalFn := fun _ _ =>
  (some [("title", .string "Not Found"), ("status", .int 404), ("type", .string "about:blank"),
    ("detail", .string ""), ("instance", .string "")], none)

/-- An error value with one extension member, for the examples. -/
def exampleError (k : String) (v : Any) : HttpError :=
  { Type_ := "about:blank", Title := "Not Found", Status := 404, Detail := "no such order",
    Instance := "/orders/42", ExtensionMembers := some [(k, v)] }

/-- A character that a JSON string literal holds as it is: no double quote, no
backslash, no control character. -/
def plainChar (c : Char) : Bool := !(c == '"') && !(c == '\\') && !(decide (c.toNat < 32))

/-- A string all of whose characters are plain. -/
def plain (s : String) : Prop := ∀ c ∈ s.data, plainChar c = true

instance (s : String) : Decidable (plain s) := by
  unfold plain
  infer_instance

/-- An error value whose type holds the text that closes the type field and
opens the title field. -/
def collisionLeft : HttpError :=
  { Type_ := "x\",\"title\":\"y", Title := "z", Status := 0, Detail := "", Instance := "",
    ExtensionMembers := none }

/-- An error value whose title holds the text that closes the title field and
opens it again. -/
def collisionRight : HttpError :=
  { Type_ := "x", Title := "y\",\"title\":\"z", Status := 0, Detail := "", Instance := "",
    ExtensionMembers := none }

/-- An error with a message of its own. -/
def GoError.isLeaf : GoError → Prop
  | .leaf _ => True
  | .wrapError _ _ => False

/-- The saved error, if any, has a message of its own. -/
def leafOpt (saved : Option GoError) : Prop := ∀ e, saved = some e → e.isLeaf

/-! ## Lemmas -/

/-! ### The serializer -/

theorem ToJSON_eq_loop (jsonMarshal : MarshalFn) (e : HttpError) (marshal : Option MarshalFn) :
    e.ToJSON jsonMarshal marshal =
      match ToJSON.loop (marshal.getD jsonMarshal) e.ExtensionMembers.entries (fixedFields e) with
      | .error err => (none, some err)
      | .ok builder => (some (builder ++ "\x7d"), none) := by
  have hb : ∀ a b c d f : String,
      "" ++ "\x7b" ++ "\"type\":" ++ ("\"" ++ a ++ "\"") ++ "," ++ "\"title\":" ++ ("\"" ++ b ++ "\"")
        ++ "," ++ "\"status\":" ++ c ++ "," ++ "\"detail\":" ++ ("\"" ++ d ++ "\"") ++ ","
        ++ "\"instance\":" ++ ("\"" ++ f ++ "\"")
      = "\x7b\"type\":\"" ++ a ++ "\",\"title\":\"" ++ b ++ "\",\"status\":"
        ++ c ++ ",\"detail\":\"" ++ d ++ "\",\"instance\":\"" ++ f ++ "\"" := by
    intro a b c d f
    apply String.ext
    simp only [String.data_append, List.append_assoc]
    rfl
  unfold HttpError.ToJSON fixedFields
  cases marshal <;> simp only [hb, Option.getD]

theorem loop_ok (marshal : MarshalFn) (l : List (String × Any)) (builder : String)
    (h : ∀ p ∈ l, (marshal p.2).2 = none) :
    ToJSON.loop marshal l builder = .ok (builder ++ entriesText marshal l) := by
  induction l generalizing builder with
  | nil => simp [ToJSON.loop, entriesText]
  | cons p rest ih =>
    obtain ⟨k, v⟩ := p
    have hv : (marshal v).2 = none := h (k, v) (List.mem_cons_self _ _)
    have hm : marshal v = ((marshal v).1, none) := by rw [← hv]
    have hrest : ∀ p ∈ rest, (marshal p.2).2 = none :=
      fun p hp => h p (List.mem_cons_of_mem _ hp)
    unfold ToJSON.loop
    rw [hm]
    simp only [ih _ hrest, entriesText, String.append_assoc]

theorem loop_error (marshal : MarshalFn) (l : List (String × Any)) (builder : String)
    (h : ∃ p ∈ l, (marshal p.2).2 ≠ none) :
    ∃ k v cause, (k, v) ∈ l ∧ (marshal v).2 = some cause ∧
      ToJSON.loop marshal l builder =
        .error (fmtErrorf ("cannot marshal extension member " ++ k ++ ": ") cause) := by
  induction l generalizing builder with
  | nil => simp at h
  | cons p rest ih =>
    obtain ⟨k, v⟩ := p
    cases hv : (marshal v).2 with
    | some cause =>
      refine ⟨k, v, cause, List.mem_cons_self _ _, hv, ?_⟩
      have hm : marshal v = ((marshal v).1, some cause) := by rw [← hv]
      unfold ToJSON.loop
      rw [hm]
    | none =>
      have hm : marshal v = ((marshal v).1, none) := by rw [← hv]
      have hrest : ∃ p ∈ rest, (marshal p.2).2 ≠ none := by
        obtain ⟨p, hp, hne⟩ := h
        rcases List.mem_cons.mp hp with rfl | hp
        · exact absurd hv hne
        · exact ⟨p, hp, hne⟩
      obtain ⟨k', v', cause, hmem, hc, hl⟩ := ih (builder ++ k ++ ":" ++ goString (marshal v).1 ++ ",") hrest
      refine ⟨k', v', cause, List.mem_cons_of_mem _ hmem, hc, ?_⟩
      unfold ToJSON.loop
      rw [hm]
      exact hl

/-! ### The deserializer -/

theorem FromJSON_eq (ju : UnmarshalFn) (data : String) (unmarshal : Option UnmarshalFn) :
    FromJSON ju data unmarshal = afterUnmarshal ((unmarshal.getD ju) data (some [])) := by
  cases unmarshal <;> rfl

theorem assertString_ret (x : Any) (s : String) : assertString x = .ret s ↔ x = .string s := by
  cases x <;> simp [assertString]

theorem assertFloat64_ret (x : Any) (f : ℚ) : assertFloat64 x = .ret f ↔ x = .float64 f := by
  cases x <;> simp [assertFloat64]

theorem assertString_panic (x : Any) (h : ∀ s, x ≠ .string s) :
    ∃ msg, assertString x = .panic msg := by
  cases x <;> simp_all [assertString]

theorem assertFloat64_panic (x : Any) (h : ∀ f, x ≠ .float64 f) :
    ∃ msg, assertFloat64 x = .panic msg := by
  cases x <;> simp_all [assertFloat64]

theorem delete_reserved (m : List (String × Any)) :
    ((((GoMap.delete (some m) "title").delete "status").delete "type").delete "detail").delete
        "instance"
      = some (m.filter (fun p => !reservedKeys.contains p.1)) := by
  simp only [GoMap.delete, Option.map_some', List.filter_filter, reservedKeys]
  congr 1
  apply List.filter_congr
  intro p _
  simp only [List.contains_cons, List.contains_nil, Bool.or_false, bne, Bool.not_or, Bool.and_assoc]
  cases (p.1 == "title") <;> cases (p.1 == "status") <;> cases (p.1 == "type") <;>
    cases (p.1 == "detail") <;> cases (p.1 == "instance") <;> rfl

theorem afterUnmarshal_returns (v : GoMap) (t ty d i : String) (f : ℚ)
    (ht : v.index "title" = .string t) (hs : v.index "status" = .float64 f)
    (hty : v.index "type" = .string ty) (hd : v.index "detail" = .string d)
    (hi : v.index "instance" = .string i) :
    afterUnmarshal (v, none) = .ret (some
      { Title := t, Status := intOfFloat64 f, Type_ := ty, Detail := d, Instance := i,
        ExtensionMembers := ((((v.delete "title").delete "status").delete "type").delete
          "detail").delete "instance" }, none) := by
  simp only [afterUnmarshal, ht, hs, hty, hd, hi, assertString, assertFloat64]

theorem afterUnmarshal_inv (r : GoMap × Option GoError) (he : HttpError)
    (h : afterUnmarshal r = .ret (some he, none)) :
    ∃ v t f ty d i, r = (v, none) ∧
      v.index "title" = .string t ∧ v.index "status" = .float64 f ∧
      v.index "type" = .string ty ∧ v.index "detail" = .string d ∧
      v.index "instance" = .string i := by
  obtain ⟨v, err⟩ := r
  cases err with
  | some err => simp [afterUnmarshal] at h
  | none =>
    unfold afterUnmarshal at h
    simp only at h
    cases h1 : assertString (v.index "title") with
    | panic msg => rw [h1] at h; simp at h
    | ret t =>
    rw [h1] at h; simp only at h
    cases h2 : assertFloat64 (v.index "status") with
    | panic msg => rw [h2] at h; simp at h
    | ret f =>
    rw [h2] at h; simp only at h
    cases h3 : assertString (v.index "type") with
    | panic msg => rw [h3] at h; simp at h
    | ret ty =>
    rw [h3] at h; simp only at h
    cases h4 : assertString (v.index "detail") with
    | panic msg => rw [h4] at h; simp at h
    | ret d =>
    rw [h4] at h; simp only at h
    cases h5 : assertString (v.index "instance") with
    | panic msg => rw [h5] at h; simp at h
    | ret i =>
    exact ⟨v, t, f, ty, d, i, rfl, (assertString_ret _ _).mp h1, (assertFloat64_ret _ _).mp h2,
      (assertString_ret _ _).mp h3, (assertString_ret _ _).mp h4, (assertString_ret _ _).mp h5⟩

theorem afterUnmarshal_panics (v : GoMap)
    (h : (∀ s, v.index "title" ≠ .string s) ∨ (∀ f, v.index "status" ≠ .float64 f) ∨
      (∀ s, v.index "type" ≠ .string s) ∨ (∀ s, v.index "detail" ≠ .string s) ∨
      (∀ s, v.index "instance" ≠ .string s)) :
    ∃ msg, afterUnmarshal (v, none) = .panic msg := by
  unfold afterUnmarshal
  simp only
  cases h1 : assertString (v.index "title") with
  | panic msg => exact ⟨msg, rfl⟩
  | ret t =>
  cases h2 : assertFloat64 (v.index "status") with
  | panic msg => exact ⟨msg, rfl⟩
  | ret f =>
  cases h3 : assertString (v.index "type") with
  | panic msg => exact ⟨msg, rfl⟩
  | ret ty =>
  cases h4 : assertString (v.index "detail") with
  | panic msg => exact ⟨msg, rfl⟩
  | ret d =>
  cases h5 : assertString (v.index "instance") with
  | panic msg => exact ⟨msg, rfl⟩
  | ret i =>
    exfalso
    rcases h with h | h | h | h | h
    · exact h t ((assertString_ret _ _).mp h1)
    · exact h f ((assertFloat64_ret _ _).mp h2)
    · exact h ty ((assertString_ret _ _).mp h3)
    · exact h d ((assertString_ret _ _).mp h4)
    · exact h i ((assertString_ret _ _).mp h5)

/-- The conversion drops the fraction: it rounds toward zero. -/
theorem truncate_eq (x : ℚ) : truncate x = if 0 ≤ x then ⌊x⌋ else ⌈x⌉ := by
  unfold truncate
  split
  · rename_i h
    rw [Rat.floor_def, Int.tdiv_eq_ediv (Rat.num_nonneg.mpr h) (by positivity)]
  · rename_i h
    have hx : 0 ≤ -x := by linarith
    have : ⌈x⌉ = -⌊-x⌋ := by rw [Int.floor_neg]; simp
    rw [this, Rat.floor_def, Rat.num_neg_eq_neg_num, Rat.den_neg_eq_den]
    have hn : 0 ≤ -x.num := by
      have := Rat.num_nonneg.mpr hx
      simpa using this
    rw [← Int.tdiv_eq_ediv hn (by positivity), Int.neg_tdiv, neg_neg]

theorem truncate_intCast (i : Int) : truncate (i : ℚ) = i := by
  simp [truncate]

theorem intOfFloat64_intCast (i : Int) (h : -2 ^ 63 ≤ i ∧ i < 2 ^ 63) :
    intOfFloat64 (i : ℚ) = i := by
  unfold intOfFloat64
  rw [truncate_intCast, if_pos h]

theorem get?_filter_reserved (m : List (String × Any)) (k : String) :
    GoMap.get? (some (m.filter (fun p => !reservedKeys.contains p.1))) k =
      if k ∈ reservedKeys then none else GoMap.get? (some m) k := by
  unfold GoMap.get? GoMap.entries
  simp only
  induction m with
  | nil => simp
  | cons p rest ih =>
    by_cases hp : reservedKeys.contains p.1 = true
    · rw [List.filter_cons_of_neg (by simpa using hp), ih]
      by_cases hk : k ∈ reservedKeys
      · simp [hk]
      · have hne : (p.1 == k) = false := by
          apply beq_false_of_ne
          rintro rfl
          exact hk (by simpa using hp)
        simp [hk, List.find?_cons, hne]
    · rw [List.filter_cons_of_pos (by simpa using hp)]
      by_cases hpk : (p.1 == k) = true
      · have hk : k ∉ reservedKeys := by
          have := eq_of_beq hpk
          subst this
          simpa using hp
        simp [List.find?_cons, hpk, hk]
      · simp only [List.find?_cons, Bool.not_eq_true] at hpk ⊢
        simp only [hpk]
        exact ih

/-! ### Decimal text -/

theorem digitChar_isDigit (d : Nat) (h : d < 10) : isDigit (digitChar d) = true := by
  interval_cases d <;> decide

theorem digitChar_value (d : Nat) (h : d < 10) : digitValue (digitChar d) = d := by
  interval_cases d <;> decide

theorem digitChar_ne_zero (d : Nat) (h : d < 10) (h0 : d ≠ 0) : (digitChar d == '0') = false := by
  interval_cases d <;> first | exact absurd rfl h0 | decide

theorem digitsValue_append (l : List Char) (c : Char) :
    digitsValue (l ++ [c]) = 10 * digitsValue l + digitValue c := by
  simp [digitsValue, List.foldl_append]

/-- What `formatBits` writes for a number below its fuel. -/
theorem formatBits_spec (fuel : Nat) : ∀ (n : Nat) (acc : List Char), n < fuel →
    ∃ l, formatBits fuel n acc = l ++ acc ∧ (∀ c ∈ l, isDigit c = true) ∧ digitsValue l = n ∧
      (n = 0 → l = ['0']) ∧ (n ≠ 0 → ∃ c t, l = c :: t ∧ (c == '0') = false) := by
  induction fuel with
  | zero => intro n acc h; omega
  | succ fuel ih =>
    intro n acc h
    unfold formatBits
    by_cases hn : n < 10
    · rw [if_pos hn]
      refine ⟨[digitChar n], rfl, ?_, ?_, ?_, ?_⟩
      · intro c hc
        rw [List.mem_singleton.mp hc]
        exact digitChar_isDigit n hn
      · simp [digitsValue, digitChar_value n hn]
      · rintro rfl; rfl
      · intro h0
        exact ⟨digitChar n, [], rfl, digitChar_ne_zero n hn h0⟩
    · rw [if_neg hn]
      have hlt : n / 10 < fuel := by omega
      obtain ⟨l, hl, hdig, hval, _, hnz⟩ := ih (n / 10) (digitChar (n % 10) :: acc) hlt
      have hmod : n % 10 < 10 := Nat.mod_lt _ (by decide)
      refine ⟨l ++ [digitChar (n % 10)], ?_, ?_, ?_, ?_, ?_⟩
      · rw [hl]; simp
      · intro c hc
        rcases List.mem_append.mp hc with hc | hc
        · exact hdig c hc
        · rw [List.mem_singleton.mp hc]
          exact digitChar_isDigit _ hmod
      · rw [digitsValue_append, hval, digitChar_value _ hmod]
        omega
      · intro h0; omega
      · intro _
        obtain ⟨c, t, hct, hc⟩ := hnz (by omega)
        exact ⟨c, t ++ [digitChar (n % 10)], by rw [hct]; rfl, hc⟩

theorem formatNat_spec (n : Nat) :
    (∀ c ∈ formatNat n, isDigit c = true) ∧ digitsValue (formatNat n) = n ∧
      (n = 0 → formatNat n = ['0']) ∧
      (n ≠ 0 → ∃ c t, formatNat n = c :: t ∧ (c == '0') = false) := by
  obtain ⟨l, hl, h⟩ := formatBits_spec (n + 1) n [] (Nat.lt_succ_self n)
  have : formatNat n = l := by rw [formatNat, hl, List.append_nil]
  rw [this]
  exact h

theorem formatNat_cons (n : Nat) : ∃ c t, formatNat n = c :: t ∧ isDigit c = true := by
  obtain ⟨hdig, _, h0, hnz⟩ := formatNat_spec n
  by_cases hn : n = 0
  · exact ⟨'0', [], h0 hn, by decide⟩
  · obtain ⟨c, t, hct, _⟩ := hnz hn
    exact ⟨c, t, hct, hdig c (by rw [hct]; exact List.mem_cons_self _ _)⟩

/-! ### Rounding to `float64` -/

theorem log2Aux_spec (fuel : Nat) : ∀ n, 0 < n → n ≤ fuel →
    2 ^ log2Aux fuel n ≤ n ∧ n < 2 ^ (log2Aux fuel n + 1) := by
  induction fuel with
  | zero => intro n h1 h2; omega
  | succ fuel ih =>
    intro n h1 h2
    unfold log2Aux
    by_cases hn : n < 2
    · rw [if_pos hn]
      constructor <;> simp <;> omega
    · rw [if_neg hn]
      obtain ⟨hlo, hhi⟩ := ih (n / 2) (by omega) (by omega)
      constructor
      · rw [pow_succ]
        have := (Nat.le_div_iff_mul_le (by decide : 0 < 2)).mp hlo
        exact this
      · rw [pow_succ]
        exact (Nat.div_lt_iff_lt_mul (by decide : 0 < 2)).mp hhi

theorem ilog2_spec (n : Nat) (h : 0 < n) : 2 ^ ilog2 n ≤ n ∧ n < 2 ^ (ilog2 n + 1) :=
  log2Aux_spec n n h (le_refl n)

/-- An integer up to 2^53 is a `float64`: rounding leaves it as it is. -/
theorem roundFloat64_int (n : Nat) (h : n ≤ 2 ^ 53) : roundFloat64 n 1 = some (n : ℚ) := by
  by_cases h0 : n = 0
  · subst h0; simp [roundFloat64]
  obtain ⟨hlo, hhi⟩ := ilog2_spec n (Nat.pos_of_ne_zero h0)
  have hk : ilog2 n ≤ 53 := by
    by_contra hc
    have : 2 ^ 54 ≤ 2 ^ ilog2 n := Nat.pow_le_pow_right (by decide) (by omega)
    omega
  have h1 : ilog2 1 = 0 := by decide
  unfold roundFloat64
  rw [if_neg h0, h1]
  generalize ilog2 n = k at *
  have hab : (if (0 : Int) ≤ (k : Int) - ((0 : Nat) : Int) then
      decide (1 * 2 ^ ((k : Int) - ((0 : Nat) : Int)).toNat ≤ n)
      else decide (1 ≤ n * 2 ^ (-((k : Int) - ((0 : Nat) : Int))).toNat)) = true := by
    simp [hlo]
  simp only [hab, if_true]
  rcases Nat.lt_or_ge k 52 with hlt | hge
  · have hp : max ((k : Int) - ((0 : Nat) : Int) - 52) (-1074) = -((52 - k : Nat) : Int) := by
      rw [max_eq_left (by omega)]; omega
    simp only [hp]
    have hneg : ¬ (0 : Int) ≤ -((52 - k : Nat) : Int) := by omega
    simp only [hneg, if_false, neg_neg, Int.toNat_ofNat, Nat.div_one, Nat.mod_one]
    simp
  · rcases Nat.eq_or_lt_of_le hge with heq | hgt
    · subst heq
      have hbig : n < 2 ^ 1024 :=
        lt_of_lt_of_le hhi (Nat.pow_le_pow_right (by decide) (by decide))
      simp [Nat.mod_one, hbig]
    · have hk53 : k = 53 := by omega
      subst hk53
      have hn : n = 2 ^ 53 := by omega
      subst hn
      decide!

/-! ### The decoder on the text `ToJSON` writes -/

theorem scanString_plain (s : List Char) (h : ∀ c ∈ s, plainChar c = true) :
    ∀ (acc rest : List Char),
      scanString .inString (s ++ '"' :: rest) acc = .ok (acc.reverse ++ s, rest) := by
  induction s with
  | nil => intro acc rest; simp [scanString]
  | cons c s ih =>
    intro acc rest
    have hc := h c (List.mem_cons_self _ _)
    simp only [plainChar, Bool.and_eq_true, Bool.not_eq_true', decide_eq_false_iff_not] at hc
    obtain ⟨⟨h1, h2⟩, h3⟩ := hc
    rw [List.cons_append, scanString]
    simp only [h1, h2, h3, Bool.false_eq_true, if_false]
    rw [ih (fun c hc => h c (List.mem_cons_of_mem _ hc))]
    simp

theorem unquote_plain (s : List Char) (h : ∀ c ∈ s, plainChar c = true) : unquote s = s := by
  unfold unquote
  induction s with
  | nil => rfl
  | cons c s ih =>
    have hc := h c (List.mem_cons_self _ _)
    simp only [plainChar, Bool.and_eq_true, Bool.not_eq_true', decide_eq_false_iff_not] at hc
    have hne : (c != '\\') = true := by simp [bne, hc.1.2]
    rw [unquoteAux, if_pos hne, ih (fun c hc => h c (List.mem_cons_of_mem _ hc))]

theorem takeDigits_digits (l : List Char) (h : ∀ c ∈ l, isDigit c = true) (c : Char)
    (hc : isDigit c = false) (rest : List Char) :
    takeDigits (l ++ c :: rest) = (l, c :: rest) := by
  induction l with
  | nil => simp [takeDigits, hc]
  | cons d l ih =>
    have hd := h d (List.mem_cons_self _ _)
    rw [List.cons_append, takeDigits, if_pos hd, ih (fun c hc => h c (List.mem_cons_of_mem _ hc))]

theorem isDigit_ne_minus (c : Char) (h : isDigit c = true) : (c == '-') = false := by
  apply beq_false_of_ne
  rintro rfl
  revert h
  decide

theorem isDigit_ne_quote (c : Char) (h : isDigit c = true) : (c == '"') = false := by
  apply beq_false_of_ne
  rintro rfl
  revert h
  decide

/-- The scanner on the decimal text of a natural number followed by a comma. -/
theorem scanNumber_formatNat (n : Nat) (rest : List Char) :
    scanNumber (formatNat n ++ ',' :: rest) = .ok (⟨false, formatNat n, [], false, []⟩, ',' :: rest) := by
  obtain ⟨hdig, _, h0, hnz⟩ := formatNat_spec n
  by_cases hn : n = 0
  · rw [h0 hn]
    simp [scanNumber, scanInteger, scanFraction, scanExponent]
  · obtain ⟨c, t, hct, hc0⟩ := hnz hn
    have hcd : isDigit c = true := hdig c (by rw [hct]; exact List.mem_cons_self _ _)
    have htake := takeDigits_digits (formatNat n) hdig ',' (by decide) rest
    rw [hct] at htake ⊢
    rw [List.cons_append] at htake ⊢
    simp only [scanNumber, scanInteger, isDigit_ne_minus c hcd, Bool.false_eq_true, if_false,
      hc0, hcd, if_true, htake]
    simp [scanFraction, scanExponent]

theorem scanNumber_minus (n : Nat) (rest : List Char) :
    scanNumber ('-' :: (formatNat n ++ ',' :: rest))
      = .ok (⟨true, formatNat n, [], false, []⟩, ',' :: rest) := by
  obtain ⟨hdig, _, h0, hnz⟩ := formatNat_spec n
  by_cases hn : n = 0
  · rw [h0 hn]
    simp [scanNumber, scanInteger, scanFraction, scanExponent]
  · obtain ⟨c, t, hct, hc0⟩ := hnz hn
    have hcd : isDigit c = true := hdig c (by rw [hct]; exact List.mem_cons_self _ _)
    have htake := takeDigits_digits (formatNat n) hdig ',' (by decide) rest
    rw [hct] at htake ⊢
    rw [List.cons_append] at htake ⊢
    simp only [scanNumber, scanInteger, beq_self_eq_true, if_true, hc0, Bool.false_eq_true,
      if_false, hcd, htake]
    simp [scanFraction, scanExponent]

theorem convertNumber_formatNat (neg : Bool) (n : Nat) (h : n ≤ 2 ^ 53) (text : List Char) :
    convertNumber ⟨neg, formatNat n, [], false, []⟩ text
      = .ok (if neg then -(n : ℚ) else (n : ℚ)) := by
  have hval : digitsValue (formatNat n) = n := (formatNat_spec n).2.1
  have he : NumLit.exponent ⟨neg, formatNat n, [], false, []⟩ = 0 := by
    simp [NumLit.exponent, digitsValue]
  unfold convertNumber
  simp only [he, le_refl, if_true, List.append_nil, hval, Int.toNat_zero, pow_zero, mul_one,
    roundFloat64_int n h]

theorem decodeValue_string (f depth : Nat) (s : List Char) (h : ∀ c ∈ s, plainChar c = true)
    (rest : List Char) (saved : Option GoError) :
    decodeValue (f + 1) depth ('"' :: (s ++ '"' :: rest)) saved
      = .ok (.string (String.mk s), rest, saved) := by
  rw [decodeValue]
  simp only [beq_self_eq_true, if_true, scanString_plain s h, List.reverse_nil, List.nil_append,
    unquote_plain s h]

theorem decodeValue_Itoa (f depth : Nat) (i : Int) (h : -2 ^ 53 ≤ i ∧ i ≤ 2 ^ 53)
    (rest : List Char) (saved : Option GoError) :
    decodeValue (f + 1) depth ((Itoa i).data ++ ',' :: rest) saved
      = .ok (.float64 (i : ℚ), ',' :: rest, saved) := by
  have hn : i.natAbs ≤ 2 ^ 53 := by omega
  by_cases hi : i < 0
  · have hq : ((i.natAbs : ℕ) : ℚ) = -(i : ℚ) := by
      have h1 : ((i.natAbs : ℕ) : ℤ) = -i := by omega
      calc ((i.natAbs : ℕ) : ℚ) = (((i.natAbs : ℕ) : ℤ) : ℚ) := (Int.cast_natCast _).symm
        _ = ((-i : ℤ) : ℚ) := by rw [h1]
        _ = -(i : ℚ) := Int.cast_neg _
    simp only [Itoa, if_pos hi, List.cons_append]
    rw [decodeValue]
    simp only [scanNumber_minus, convertNumber_formatNat true _ hn, if_true, hq, neg_neg]
    simp
  · have hq : ((i.natAbs : ℕ) : ℚ) = (i : ℚ) := by
      have h1 : ((i.natAbs : ℕ) : ℤ) = i := by omega
      calc ((i.natAbs : ℕ) : ℚ) = (((i.natAbs : ℕ) : ℤ) : ℚ) := (Int.cast_natCast _).symm
        _ = (i : ℚ) := by rw [h1]
    obtain ⟨c, t, hct, hcd⟩ := formatNat_cons i.natAbs
    have hs := scanNumber_formatNat i.natAbs rest
    simp only [Itoa, if_neg hi]
    rw [hct, List.cons_append] at hs ⊢
    rw [decodeValue]
    simp only [hs, isDigit_ne_quote c hcd, hcd, Bool.or_true, if_true, Bool.false_eq_true,
      if_false, ← hct, convertNumber_formatNat false _ hn, hq]

theorem skipSpace_Itoa (i : Int) (rest : List Char) :
    skipSpace ((Itoa i).data ++ rest) = (Itoa i).data ++ rest := by
  by_cases hi : i < 0
  · simp [Itoa, hi, skipSpace, isSpace]
  · obtain ⟨c, t, hct, hcd⟩ := formatNat_cons i.natAbs
    have hsp : isSpace c = false := by
      cases hs : isSpace c with
      | false => rfl
      | true =>
        exfalso
        simp only [isSpace, Bool.or_eq_true, beq_iff_eq] at hs
        rcases hs with ((rfl | rfl) | rfl) | rfl <;> revert hcd <;> decide
    simp [Itoa, hi, hct, skipSpace, hsp]

/-- One turn of the decoder on the members of an object: a member with a plain
key, followed by a comma and the quote of the next key. -/
theorem decodeMembers_step (f depth : Nat) (key : List Char)
    (hkey : ∀ c ∈ key, plainChar c = true) (vs rest : List Char) (v : Any)
    (m : List (String × Any)) (saved saved1 : Option GoError)
    (hsp : skipSpace vs = vs)
    (hv : decodeValue (f + 1) depth vs saved = .ok (v, ',' :: '"' :: rest, saved1)) :
    decodeMembers (f + 2) depth ('"' :: (key ++ '"' :: ':' :: vs)) m saved
      = decodeMembers (f + 1) depth ('"' :: rest) (assign m (String.mk key) v) saved1 := by
  rw [decodeMembers]
  simp [scanString_plain key hkey, skipSpace, isSpace, hsp, hv, unquote_plain key hkey]

/-- The last turn of the decoder on the members of an object. -/
theorem decodeMembers_last (f depth : Nat) (key : List Char)
    (hkey : ∀ c ∈ key, plainChar c = true) (vs rest : List Char) (v : Any)
    (m : List (String × Any)) (saved saved1 : Option GoError)
    (hsp : skipSpace vs = vs)
    (hv : decodeValue (f + 1) depth vs saved = .ok (v, '\x7d' :: rest, saved1)) :
    decodeMembers (f + 2) depth ('"' :: (key ++ '"' :: ':' :: vs)) m saved
      = .ok (assign m (String.mk key) v, rest, saved1) := by
  rw [decodeMembers]
  simp [scanString_plain key hkey, skipSpace, isSpace, hsp, hv, unquote_plain key hkey]

/-- A member followed by a character that is neither white space, nor a comma,
nor the closing brace stops the decoder. -/
theorem decodeMembers_bad (f depth : Nat) (key : List Char)
    (hkey : ∀ c ∈ key, plainChar c = true) (vs rest : List Char) (v : Any)
    (m : List (String × Any)) (saved saved1 : Option GoError) (c : Char)
    (hsp : skipSpace vs = vs)
    (hv : decodeValue (f + 1) depth vs saved = .ok (v, c :: rest, saved1))
    (hc1 : isSpace c = false) (hc2 : (c == ',') = false) (hc3 : (c == '\x7d') = false) :
    decodeMembers (f + 2) depth ('"' :: (key ++ '"' :: ':' :: vs)) m saved
      = .error (syntaxError c "after object key:value pair") := by
  have hcolon : skipSpace (':' :: vs) = ':' :: vs := by simp [skipSpace, isSpace]
  have hskip : skipSpace (c :: rest) = c :: rest := by simp [skipSpace, hc1]
  rw [decodeMembers]
  simp [scanString_plain key hkey, hcolon, hsp, hv, hskip, hc2, hc3]

/-- The standard decoder on the text of the five fixed fields. -/
theorem stdUnmarshal_fixedFields (e : HttpError)
    (hType : plain e.Type_) (hTitle : plain e.Title) (hDetail : plain e.Detail)
    (hInstance : plain e.Instance) (hStatus : -2 ^ 53 ≤ e.Status ∧ e.Status ≤ 2 ^ 53) :
    stdUnmarshal (fixedFields e ++ "\x7d") (some []) =
      (some [("type", .string e.Type_), ("title", .string e.Title),
        ("status", .float64 (e.Status : ℚ)), ("detail", .string e.Detail),
        ("instance", .string e.Instance)], none) := by
  have hdata : (fixedFields e ++ "\x7d").data =
      '\x7b' :: '"' :: ("type".data ++ '"' :: ':' :: '"' :: (e.Type_.data ++ '"' :: ',' :: '"' ::
        ("title".data ++ '"' :: ':' :: '"' :: (e.Title.data ++ '"' :: ',' :: '"' ::
        ("status".data ++ '"' :: ':' :: ((Itoa e.Status).data ++ ',' :: '"' ::
        ("detail".data ++ '"' :: ':' :: '"' :: (e.Detail.data ++ '"' :: ',' :: '"' ::
        ("instance".data ++ '"' :: ':' :: '"' :: (e.Instance.data ++ '"' :: '\x7d' :: []))))))))))
      := by
    simp only [fixedFields, String.data_append, List.append_assoc]
    rfl
  obtain ⟨f, hf⟩ : ∃ f, 2 * (fixedFields e ++ "\x7d").data.length + 2 = f + 6 := by
    have hlen : 2 ≤ (fixedFields e ++ "\x7d").data.length := by
      rw [hdata]
      simp only [List.length_cons]
      omega
    exact ⟨2 * ((fixedFields e ++ "\x7d").data.length - 2), by omega⟩
  have hk1 : ∀ c ∈ "type".data, plainChar c = true := by decide
  have hk2 : ∀ c ∈ "title".data, plainChar c = true := by decide
  have hk3 : ∀ c ∈ "status".data, plainChar c = true := by decide
  have hk4 : ∀ c ∈ "detail".data, plainChar c = true := by decide
  have hk5 : ∀ c ∈ "instance".data, plainChar c = true := by decide
  have hq : ∀ l : List Char, skipSpace ('"' :: l) = '"' :: l := by
    intro l; simp [skipSpace, isSpace]
  unfold stdUnmarshal
  simp only [hf]
  rw [hdata]
  simp only [skipSpace, isSpace, beq_self_eq_true, if_true, Bool.or_self, Bool.false_eq_true,
    if_false, Char.reduceBEq, GoMap.entries]
  rw [decodeMembers_step (f + 4) 1 _ hk1 _ _ _ _ _ _ (hq _)
      (decodeValue_string _ _ _ hType _ _),
    decodeMembers_step (f + 3) 1 _ hk2 _ _ _ _ _ _ (hq _)
      (decodeValue_string _ _ _ hTitle _ _),
    decodeMembers_step (f + 2) 1 _ hk3 _ _ _ _ _ _ (skipSpace_Itoa _ _)
      (decodeValue_Itoa _ _ _ hStatus _ _),
    decodeMembers_step (f + 1) 1 _ hk4 _ _ _ _ _ _ (hq _)
      (decodeValue_string _ _ _ hDetail _ _),
    decodeMembers_last f 1 _ hk5 _ _ _ _ _ _ (hq _)
      (decodeValue_string _ _ _ hInstance _ _)]
  simp [assign, skipSpace]

/-- The standard decoder on the text of the five fixed fields followed by
anything but white space, a comma or the closing brace: a syntax error at the
character after the instance. -/
theorem stdUnmarshal_fixedFields_then (e : HttpError)
    (hType : plain e.Type_) (hTitle : plain e.Title) (hDetail : plain e.Detail)
    (hInstance : plain e.Instance) (hStatus : -2 ^ 53 ≤ e.Status ∧ e.Status ≤ 2 ^ 53)
    (c : Char) (tail : List Char)
    (hc1 : isSpace c = false) (hc2 : (c == ',') = false) (hc3 : (c == '\x7d') = false)
    (v : GoMap) :
    stdUnmarshal (fixedFields e ++ String.mk (c :: tail)) v =
      (v, some (syntaxError c "after object key:value pair")) := by
  have hdata : (fixedFields e ++ String.mk (c :: tail)).data =
      '\x7b' :: '"' :: ("type".data ++ '"' :: ':' :: '"' :: (e.Type_.data ++ '"' :: ',' :: '"' ::
        ("title".data ++ '"' :: ':' :: '"' :: (e.Title.data ++ '"' :: ',' :: '"' ::
        ("status".data ++ '"' :: ':' :: ((Itoa e.Status).data ++ ',' :: '"' ::
        ("detail".data ++ '"' :: ':' :: '"' :: (e.Detail.data ++ '"' :: ',' :: '"' ::
        ("instance".data ++ '"' :: ':' :: '"' :: (e.Instance.data ++ '"' :: c :: tail))))))))))
      := by
    simp only [fixedFields, String.data_append, List.append_assoc]
    rfl
  obtain ⟨f, hf⟩ : ∃ f, 2 * (fixedFields e ++ String.mk (c :: tail)).data.length + 2 = f + 6 := by
    have hlen : 2 ≤ (fixedFields e ++ String.mk (c :: tail)).data.length := by
      rw [hdata]
      simp only [List.length_cons]
      omega
    exact ⟨2 * ((fixedFields e ++ String.mk (c :: tail)).data.length - 2), by omega⟩
  have hk1 : ∀ c ∈ "type".data, plainChar c = true := by decide
  have hk2 : ∀ c ∈ "title".data, plainChar c = true := by decide
  have hk3 : ∀ c ∈ "status".data, plainChar c = true := by decide
  have hk4 : ∀ c ∈ "detail".data, plainChar c = true := by decide
  have hk5 : ∀ c ∈ "instance".data, plainChar c = true := by decide
  have hq : ∀ l : List Char, skipSpace ('"' :: l) = '"' :: l := by
    intro l; simp [skipSpace, isSpace]
  unfold stdUnmarshal
  simp only [hf]
  rw [hdata]
  simp only [skipSpace, isSpace, beq_self_eq_true, if_true, Bool.or_self, Bool.false_eq_true,
    if_false, Char.reduceBEq]
  rw [decodeMembers_step (f + 4) 1 _ hk1 _ _ _ _ _ _ (hq _)
      (decodeValue_string _ _ _ hType _ _),
    decodeMembers_step (f + 3) 1 _ hk2 _ _ _ _ _ _ (hq _)
      (decodeValue_string _ _ _ hTitle _ _),
    decodeMembers_step (f + 2) 1 _ hk3 _ _ _ _ _ _ (skipSpace_Itoa _ _)
      (decodeValue_Itoa _ _ _ hStatus _ _),
    decodeMembers_step (f + 1) 1 _ hk4 _ _ _ _ _ _ (hq _)
      (decodeValue_string _ _ _ hDetail _ _),
    decodeMembers_bad f 1 _ hk5 _ _ _ _ _ _ c (hq _)
      (decodeValue_string _ _ _ hInstance _ _) hc1 hc2 hc3]

/-! ### Serializing, then deserializing -/

/-- What `FromJSON` with the standard decoder returns on the bytes of `ToJSON`,
for an error value with no extension member. -/
theorem roundTrip_eq (jsonMarshal : MarshalFn) (e : HttpError) (data : String)
    (hext : e.ExtensionMembers = none)
    (hto : e.ToJSON jsonMarshal none = (some data, none)) :
    FromJSON stdUnmarshal data none = FromJSON stdUnmarshal (fixedFields e ++ "\x7d") none := by
  have hl : e.ExtensionMembers.entries = [] := by rw [hext]; rfl
  rw [ToJSON_eq_loop, hl] at hto
  have hd := congrArg Prod.fst hto
  simp only [ToJSON.loop, Option.some.injEq] at hd
  rw [← hd]

theorem entriesText_cons_data (marshal : MarshalFn) (k : String) (v : Any)
    (rest : List (String × Any)) :
    ∃ tail, entriesText marshal ((k, v) :: rest) = String.mk ((k.data ++ [':']) ++ tail) := by
  refine ⟨(goString (marshal v).1 ++ "," ++ entriesText marshal rest).data, ?_⟩
  apply String.ext
  simp [entriesText, String.data_append]

/-- The round trip of an error value with an extension member: when the fixed
fields are plain and the key the loop of `ToJSON` visits first does not start
with white space, a comma or a closing brace, the standard decoder stops at
the first character after the instance, and `FromJSON` returns its error. -/
theorem roundTrip_extension_member (jsonMarshal : MarshalFn) (e : HttpError)
    (hType : plain e.Type_) (hTitle : plain e.Title) (hDetail : plain e.Detail)
    (hInstance : plain e.Instance) (hStatus : -2 ^ 53 ≤ e.Status ∧ e.Status ≤ 2 ^ 53)
    (k : String) (v : Any) (rest : List (String × Any)) (c : Char) (kt : List Char)
    (hentries : e.ExtensionMembers.entries = (k, v) :: rest)
    (hk : k.data ++ [':'] = c :: kt)
    (hc1 : isSpace c = false) (hc2 : (c == ',') = false) (hc3 : (c == '\x7d') = false)
    (data : String) (hto : e.ToJSON jsonMarshal none = (some data, none)) :
    FromJSON stdUnmarshal data none =
      .ret (none, some (fmtErrorf "cannot unmarshal http error: "
        (syntaxError c "after object key:value pair"))) := by
  have hok : ∀ p ∈ e.ExtensionMembers.entries, (jsonMarshal p.2).2 = none := by
    by_contra hcon
    push_neg at hcon
    obtain ⟨k', v', cause, _, _, hl⟩ :=
      loop_error jsonMarshal e.ExtensionMembers.entries (fixedFields e) hcon
    rw [ToJSON_eq_loop] at hto
    simp only [Option.getD_none] at hto
    rw [hl] at hto
    simp at hto
  rw [ToJSON_eq_loop] at hto
  simp only [Option.getD_none] at hto
  rw [loop_ok _ _ _ hok, hentries] at hto
  obtain ⟨tail, htail⟩ := entriesText_cons_data jsonMarshal k v rest
  rw [htail, hk] at hto
  have hd := congrArg Prod.fst hto
  simp only [Option.some.injEq] at hd
  have hdata : data = fixedFields e ++ String.mk (c :: (kt ++ tail ++ "\x7d".data)) := by
    rw [← hd]
    apply String.ext
    simp [String.data_append]
  rw [FromJSON_eq, Option.getD_none, hdata,
    stdUnmarshal_fixedFields_then e hType hTitle hDetail hInstance hStatus c _ hc1 hc2 hc3]
  rfl

/-! ### The fuel of the decoder -/

theorem skipSpace_length (l : List Char) : (skipSpace l).length ≤ l.length := by
  induction l with
  | nil => simp [skipSpace]
  | cons c l ih =>
    unfold skipSpace
    split
    · simp only [List.length_cons]; omega
    · exact le_refl _

theorem takeDigits_length (l : List Char) : (takeDigits l).2.length ≤ l.length := by
  induction l with
  | nil => simp [takeDigits]
  | cons c l ih =>
    unfold takeDigits
    split
    · simp only [List.length_cons]; omega
    · exact le_refl _

theorem scanString_sound (cs : List Char) : ∀ (st : StringState) (acc : List Char),
    (∀ e, scanString st cs acc = .error e → e.isLeaf) ∧
    (∀ raw rest, scanString st cs acc = .ok (raw, rest) → rest.length < cs.length) := by
  induction cs with
  | nil =>
    intro st acc
    cases st <;> simp [scanString, unexpectedEnd, syntaxError, GoError.isLeaf]
  | cons c cs ih =>
    intro st acc
    cases st with
    | inString =>
      rw [scanString]
      split
      · simp
      · split
        · refine ⟨(ih _ _).1, fun raw rest h => ?_⟩
          have := (ih _ _).2 raw rest h
          simp only [List.length_cons]; omega
        · split
          · simp [syntaxError, GoError.isLeaf]
          · refine ⟨(ih _ _).1, fun raw rest h => ?_⟩
            have := (ih _ _).2 raw rest h
            simp only [List.length_cons]; omega
    | inStringEsc =>
      rw [scanString]
      split
      · refine ⟨(ih _ _).1, fun raw rest h => ?_⟩
        have := (ih _ _).2 raw rest h
        simp only [List.length_cons]; omega
      · split
        · refine ⟨(ih _ _).1, fun raw rest h => ?_⟩
          have := (ih _ _).2 raw rest h
          simp only [List.length_cons]; omega
        · simp [syntaxError, GoError.isLeaf]
    | inStringEscU k =>
      rw [scanString]
      split
      · refine ⟨(ih _ _).1, fun raw rest h => ?_⟩
        have := (ih _ _).2 raw rest h
        simp only [List.length_cons]; omega
      · simp [syntaxError, GoError.isLeaf]

theorem expectWord_sound (name : String) (ws : List Char) : ∀ (cs : List Char),
    (∀ e, expectWord name ws cs = .error e → e.isLeaf) ∧
    (∀ rest, expectWord name ws cs = .ok rest → rest.length ≤ cs.length) := by
  induction ws with
  | nil => intro cs; simp [expectWord]
  | cons w ws ih =>
    intro cs
    cases cs with
    | nil => simp [expectWord, syntaxError, GoError.isLeaf]
    | cons c cs =>
      rw [expectWord]
      split
      · refine ⟨(ih _).1, fun rest h => ?_⟩
        have := (ih _).2 rest h
        simp only [List.length_cons]; omega
      · simp [syntaxError, GoError.isLeaf]

theorem scanExponentDigits_sound (expNeg : Bool) (cs : List Char) :
    (∀ e, scanExponentDigits expNeg cs = .error e → e.isLeaf) ∧
    (∀ b ds rest, scanExponentDigits expNeg cs = .ok (b, ds, rest) → rest.length ≤ cs.length) := by
  cases cs with
  | nil => simp [scanExponentDigits, syntaxError, GoError.isLeaf]
  | cons d r =>
    unfold scanExponentDigits
    simp only
    split
    · refine ⟨by simp, fun b ds rest h => ?_⟩
      simp only [Except.ok.injEq, Prod.mk.injEq] at h
      obtain ⟨_, _, rfl⟩ := h
      exact takeDigits_length _
    · simp [syntaxError, GoError.isLeaf]

theorem scanExponent_sound (cs : List Char) :
    (∀ e, scanExponent cs = .error e → e.isLeaf) ∧
    (∀ b ds rest, scanExponent cs = .ok (b, ds, rest) → rest.length ≤ cs.length) := by
  cases cs with
  | nil => simp [scanExponent]
  | cons c rest =>
    unfold scanExponent
    simp only
    split
    · cases rest with
      | nil => simp [syntaxError, GoError.isLeaf]
      | cons s rest1 =>
        simp only
        split
        · refine ⟨(scanExponentDigits_sound _ _).1, fun b ds r h => ?_⟩
          have := (scanExponentDigits_sound _ _).2 b ds r h
          simp only [List.length_cons]; omega
        · split
          · refine ⟨(scanExponentDigits_sound _ _).1, fun b ds r h => ?_⟩
            have := (scanExponentDigits_sound _ _).2 b ds r h
            simp only [List.length_cons]; omega
          · refine ⟨(scanExponentDigits_sound _ _).1, fun b ds r h => ?_⟩
            have := (scanExponentDigits_sound _ _).2 b ds r h
            simp only [List.length_cons] at *; omega
    · refine ⟨by simp, fun b ds r h => ?_⟩
      simp only [Except.ok.injEq, Prod.mk.injEq] at h
      obtain ⟨_, _, rfl⟩ := h
      exact le_refl _

theorem scanFraction_sound (cs : List Char) :
    (∀ e, scanFraction cs = .error e → e.isLeaf) ∧
    (∀ fr b ds rest, scanFraction cs = .ok (fr, b, ds, rest) → rest.length ≤ cs.length) := by
  cases cs with
  | nil => simp [scanFraction]
  | cons c rest =>
    unfold scanFraction
    simp only
    split
    · cases rest with
      | nil => simp [syntaxError, GoError.isLeaf]
      | cons d r2 =>
        simp only
        split
        · have h1 := takeDigits_length (d :: r2)
          have h2 := scanExponent_sound (takeDigits (d :: r2)).2
          cases hx : scanExponent (takeDigits (d :: r2)).2 with
          | error e => simpa using h2.1 e hx
          | ok x =>
            obtain ⟨b, ds, r⟩ := x
            have h3 := h2.2 b ds r hx
            refine ⟨by simp, fun fr b' ds' r' h => ?_⟩
            simp only [Except.ok.injEq, Prod.mk.injEq] at h
            obtain ⟨_, _, _, rfl⟩ := h
            simp only [List.length_cons] at *
            omega
        · simp [syntaxError, GoError.isLeaf]
    · have h2 := scanExponent_sound (c :: rest)
      cases hx : scanExponent (c :: rest) with
      | error e => simpa using h2.1 e hx
      | ok x =>
        obtain ⟨b, ds, r⟩ := x
        have h3 := h2.2 b ds r hx
        refine ⟨by simp, fun fr b' ds' r' h => ?_⟩
        simp only [Except.ok.injEq, Prod.mk.injEq] at h
        obtain ⟨_, _, _, rfl⟩ := h
        exact h3

theorem scanInteger_sound (neg : Bool) (cs : List Char) :
    (∀ e, scanInteger neg cs = .error e → e.isLeaf) ∧
    (∀ lit rest, scanInteger neg cs = .ok (lit, rest) → rest.length < cs.length) := by
  cases cs with
  | nil => simp [scanInteger, syntaxError, GoError.isLeaf]
  | cons c rest =>
    unfold scanInteger
    simp only
    split
    · have h2 := scanFraction_sound rest
      cases hx : scanFraction rest with
      | error e => simpa using h2.1 e hx
      | ok x =>
        obtain ⟨fr, b, ds, r⟩ := x
        have h3 := h2.2 fr b ds r hx
        refine ⟨by simp, fun lit r' h => ?_⟩
        simp only [Except.ok.injEq, Prod.mk.injEq] at h
        obtain ⟨_, rfl⟩ := h
        simp only [List.length_cons] at *
        omega
    · split
      · rename_i hd
        have h1 : (takeDigits (c :: rest)).2.length ≤ rest.length := by
          rw [takeDigits, if_pos hd]
          exact takeDigits_length rest
        have h2 := scanFraction_sound (takeDigits (c :: rest)).2
        cases hx : scanFraction (takeDigits (c :: rest)).2 with
        | error e => simpa using h2.1 e hx
        | ok x =>
          obtain ⟨fr, b, ds, r⟩ := x
          have h3 := h2.2 fr b ds r hx
          refine ⟨by simp, fun lit r' h => ?_⟩
          simp only [Except.ok.injEq, Prod.mk.injEq] at h
          obtain ⟨_, rfl⟩ := h
          simp only [List.length_cons] at *
          omega
      · simp [syntaxError, GoError.isLeaf]

theorem scanNumber_sound (cs : List Char) :
    (∀ e, scanNumber cs = .error e → e.isLeaf) ∧
    (∀ lit rest, scanNumber cs = .ok (lit, rest) → rest.length < cs.length) := by
  cases cs with
  | nil => simp [scanNumber, syntaxError, GoError.isLeaf]
  | cons c rest =>
    unfold scanNumber
    simp only
    split
    · refine ⟨(scanInteger_sound _ _).1, fun lit r h => ?_⟩
      have := (scanInteger_sound _ _).2 lit r h
      simp only [List.length_cons]; omega
    · exact scanInteger_sound _ _

theorem syntaxError_isLeaf (c : Char) (context : String) : (syntaxError c context).isLeaf :=
  trivial

theorem unexpectedEnd_isLeaf : unexpectedEnd.isLeaf := trivial

theorem convertNumber_sound (lit : NumLit) (text : List Char) (e : GoError)
    (h : convertNumber lit text = .error e) : e.isLeaf := by
  unfold convertNumber at h
  simp only at h
  split at h
  · simp only [Except.error.injEq] at h
    subst h
    trivial
  · simp at h

theorem saveError_leafOpt (saved : Option GoError) (e : GoError) (hs : leafOpt saved)
    (he : e.isLeaf) : leafOpt (saveError saved e) := by
  intro e' h
  cases saved with
  | none =>
    simp only [saveError, Option.some.injEq] at h
    subst h
    exact he
  | some e0 =>
    simp only [saveError, Option.some.injEq] at h
    subst h
    exact hs _ rfl

/-- The decoder with enough fuel: its errors are errors of the input, never the
want of fuel, and a value read takes at least one character. -/
theorem decode_sound (fuel : Nat) :
    (∀ depth cs saved, 2 * cs.length + 1 ≤ fuel →
      (∀ e, decodeValue fuel depth cs saved = .error e → e.isLeaf) ∧
      (∀ v rest s, decodeValue fuel depth cs saved = .ok (v, rest, s) →
        rest.length < cs.length ∧ (leafOpt saved → leafOpt s))) ∧
    (∀ depth cs m saved, 2 * cs.length + 1 ≤ fuel →
      (∀ e, decodeMembers fuel depth cs m saved = .error e → e.isLeaf) ∧
      (∀ m' rest s, decodeMembers fuel depth cs m saved = .ok (m', rest, s) →
        rest.length < cs.length ∧ (leafOpt saved → leafOpt s))) ∧
    (∀ depth cs xs saved, 2 * cs.length + 2 ≤ fuel →
      (∀ e, decodeElements fuel depth cs xs saved = .error e → e.isLeaf) ∧
      (∀ xs' rest s, decodeElements fuel depth cs xs saved = .ok (xs', rest, s) →
        rest.length < cs.length ∧ (leafOpt saved → leafOpt s))) := by
  induction fuel with
  | zero =>
    refine ⟨fun _ cs _ h => ?_, fun _ cs _ _ h => ?_, fun _ cs _ _ h => ?_⟩ <;> omega
  | succ fuel ih =>
    obtain ⟨ihV, ihM, ihE⟩ := ih
    refine ⟨?_, ?_, ?_⟩
    · intro depth cs saved hfuel
      cases cs with
      | nil => simp [decodeValue, unexpectedEnd, GoError.isLeaf]
      | cons c rest =>
        have hsk := skipSpace_length rest
        simp only [List.length_cons] at hfuel
        rw [decodeValue]
        split
        · -- a string
          have hS := scanString_sound rest .inString []
          cases hs : scanString .inString rest [] with
          | error e => simpa using hS.1 e hs
          | ok x =>
            obtain ⟨raw, rest1⟩ := x
            have := hS.2 raw rest1 hs
            refine ⟨by simp, fun v r s h => ?_⟩
            simp only [Except.ok.injEq, Prod.mk.injEq] at h
            obtain ⟨_, rfl, rfl⟩ := h
            exact ⟨by simp only [List.length_cons]; omega, id⟩
        · split
          · -- a number
            have hN := scanNumber_sound (c :: rest)
            cases hs : scanNumber (c :: rest) with
            | error e => simpa using hN.1 e hs
            | ok x =>
              obtain ⟨lit, rest1⟩ := x
              have := hN.2 lit rest1 hs
              simp only
              split
              · rename_i e hc
                refine ⟨by simp, fun v r s h => ?_⟩
                simp only [Except.ok.injEq, Prod.mk.injEq] at h
                obtain ⟨_, rfl, rfl⟩ := h
                exact ⟨this, fun hl => saveError_leafOpt _ _ hl (convertNumber_sound _ _ _ hc)⟩
              · refine ⟨by simp, fun v r s h => ?_⟩
                simp only [Except.ok.injEq, Prod.mk.injEq] at h
                obtain ⟨_, rfl, rfl⟩ := h
                exact ⟨this, id⟩
          · split
            · -- an object
              split
              · simp [syntaxError_isLeaf]
              · cases hsp : skipSpace rest with
                | nil => simp [unexpectedEnd_isLeaf]
                | cons c1 rest1 =>
                  rw [hsp] at hsk
                  simp only [List.length_cons] at hsk
                  simp only
                  split
                  · refine ⟨by simp, fun v r s h => ?_⟩
                    simp only [Except.ok.injEq, Prod.mk.injEq] at h
                    obtain ⟨_, rfl, rfl⟩ := h
                    exact ⟨by simp only [List.length_cons]; omega, id⟩
                  · have hM := ihM (depth + 1) (c1 :: rest1) [] saved
                      (by simp only [List.length_cons]; omega)
                    cases hd : decodeMembers fuel (depth + 1) (c1 :: rest1) [] saved with
                    | error e => simpa using hM.1 e hd
                    | ok x =>
                      obtain ⟨m, rest2, saved1⟩ := x
                      have := hM.2 m rest2 saved1 hd
                      refine ⟨by simp, fun v r s h => ?_⟩
                      simp only [Except.ok.injEq, Prod.mk.injEq] at h
                      obtain ⟨_, rfl, rfl⟩ := h
                      exact ⟨by simp only [List.length_cons] at *; omega, this.2⟩
            · split
              · -- an array
                split
                · simp [syntaxError_isLeaf]
                · cases hsp : skipSpace rest with
                  | nil => simp [unexpectedEnd_isLeaf]
                  | cons c1 rest1 =>
                    rw [hsp] at hsk
                    simp only [List.length_cons] at hsk
                    simp only
                    split
                    · refine ⟨by simp, fun v r s h => ?_⟩
                      simp only [Except.ok.injEq, Prod.mk.injEq] at h
                      obtain ⟨_, rfl, rfl⟩ := h
                      exact ⟨by simp only [List.length_cons]; omega, id⟩
                    · have hE := ihE (depth + 1) (c1 :: rest1) [] saved
                        (by simp only [List.length_cons]; omega)
                      cases hd : decodeElements fuel (depth + 1) (c1 :: rest1) [] saved with
                      | error e => simpa using hE.1 e hd
                      | ok x =>
                        obtain ⟨m, rest2, saved1⟩ := x
                        have := hE.2 m rest2 saved1 hd
                        refine ⟨by simp, fun v r s h => ?_⟩
                        simp only [Except.ok.injEq, Prod.mk.injEq] at h
                        obtain ⟨_, rfl, rfl⟩ := h
                        exact ⟨by simp only [List.length_cons] at *; omega, this.2⟩
              · -- a literal, or no value
                split
                · have hw := expectWord_sound "true" ['r', 'u', 'e'] rest
                  cases hx : expectWord "true" ['r', 'u', 'e'] rest with
                  | error e => simpa using hw.1 e hx
                  | ok r1 =>
                    have := hw.2 r1 hx
                    refine ⟨by simp, fun v r s h => ?_⟩
                    simp only [Except.ok.injEq, Prod.mk.injEq] at h
                    obtain ⟨_, rfl, rfl⟩ := h
                    exact ⟨by simp only [List.length_cons]; omega, id⟩
                · split
                  · have hw := expectWord_sound "false" ['a', 'l', 's', 'e'] rest
                    cases hx : expectWord "false" ['a', 'l', 's', 'e'] rest with
                    | error e => simpa using hw.1 e hx
                    | ok r1 =>
                      have := hw.2 r1 hx
                      refine ⟨by simp, fun v r s h => ?_⟩
                      simp only [Except.ok.injEq, Prod.mk.injEq] at h
                      obtain ⟨_, rfl, rfl⟩ := h
                      exact ⟨by simp only [List.length_cons]; omega, id⟩
                  · split
                    · have hw := expectWord_sound "null" ['u', 'l', 'l'] rest
                      cases hx : expectWord "null" ['u', 'l', 'l'] rest with
                      | error e => simpa using hw.1 e hx
                      | ok r1 =>
                        have := hw.2 r1 hx
                        refine ⟨by simp, fun v r s h => ?_⟩
                        simp only [Except.ok.injEq, Prod.mk.injEq] at h
                        obtain ⟨_, rfl, rfl⟩ := h
                        exact ⟨by simp only [List.length_cons]; omega, id⟩
                    · simp [syntaxError_isLeaf]
    · intro depth cs m saved hfuel
      cases cs with
      | nil => simp [decodeMembers, unexpectedEnd, GoError.isLeaf]
      | cons c rest =>
        simp only [List.length_cons] at hfuel
        rw [decodeMembers]
        split
        · simp [syntaxError_isLeaf]
        · have hS := scanString_sound rest .inString []
          cases hs : scanString .inString rest [] with
          | error e => simpa using hS.1 e hs
          | ok x =>
            obtain ⟨raw, rest1⟩ := x
            have h1 := hS.2 raw rest1 hs
            have hsk1 := skipSpace_length rest1
            simp only
            cases hsp : skipSpace rest1 with
            | nil => simp [unexpectedEnd_isLeaf]
            | cons c1 rest2 =>
              rw [hsp] at hsk1
              simp only [List.length_cons] at hsk1
              simp only
              split
              · simp [syntaxError_isLeaf]
              · have hsk2 := skipSpace_length rest2
                have hV := ihV depth (skipSpace rest2) saved (by omega)
                cases hv : decodeValue fuel depth (skipSpace rest2) saved with
                | error e => simpa using hV.1 e hv
                | ok x =>
                  obtain ⟨v, rest3, saved1⟩ := x
                  have h3 := hV.2 v rest3 saved1 hv
                  have hsk3 := skipSpace_length rest3
                  simp only
                  cases hsp3 : skipSpace rest3 with
                  | nil => simp [unexpectedEnd_isLeaf]
                  | cons c2 rest4 =>
                    rw [hsp3] at hsk3
                    simp only [List.length_cons] at hsk3
                    simp only
                    split
                    · have hsk4 := skipSpace_length rest4
                      have hM := ihM depth (skipSpace rest4)
                        (assign m (String.mk (unquote raw)) v) saved1 (by omega)
                      refine ⟨hM.1, fun m' r s h => ?_⟩
                      have := hM.2 m' r s h
                      exact ⟨by simp only [List.length_cons]; omega, fun hl => this.2 (h3.2 hl)⟩
                    · split
                      · refine ⟨by simp, fun m' r s h => ?_⟩
                        simp only [Except.ok.injEq, Prod.mk.injEq] at h
                        obtain ⟨_, rfl, rfl⟩ := h
                        exact ⟨by simp only [List.length_cons]; omega, h3.2⟩
                      · simp [syntaxError_isLeaf]
    · intro depth cs xs saved hfuel
      rw [decodeElements]
      have hV := ihV depth cs saved (by omega)
      cases hv : decodeValue fuel depth cs saved with
      | error e => simpa using hV.1 e hv
      | ok x =>
        obtain ⟨v, rest, saved1⟩ := x
        have h1 := hV.2 v rest saved1 hv
        have hsk := skipSpace_length rest
        simp only
        cases hsp : skipSpace rest with
        | nil => simp [unexpectedEnd_isLeaf]
        | cons c rest1 =>
          rw [hsp] at hsk
          simp only [List.length_cons] at hsk
          simp only
          split
          · have hsk1 := skipSpace_length rest1
            have hE := ihE depth (skipSpace rest1) (xs ++ [v]) saved1 (by omega)
            refine ⟨hE.1, fun xs' r s h => ?_⟩
            have := hE.2 xs' r s h
            exact ⟨by omega, fun hl => this.2 (h1.2 hl)⟩
          · split
            · refine ⟨by simp, fun xs' r s h => ?_⟩
              simp only [Except.ok.injEq, Prod.mk.injEq] at h
              obtain ⟨_, rfl, rfl⟩ := h
              exact ⟨by omega, h1.2⟩
            · simp [syntaxError_isLeaf]

/-- The standard decoder never runs out of fuel: every error it returns is an
error of the input. -/
theorem stdUnmarshal_sound (data : String) (v : GoMap) (e : GoError)
    (h : (stdUnmarshal data v).2 = some e) : e.isLeaf ∧ e ≠ outOfFuel := by
  have hleaf : e.isLeaf := by
    unfold stdUnmarshal at h
    simp only at h
    have hsk := skipSpace_length data.data
    cases hsp : skipSpace data.data with
    | nil =>
      rw [hsp] at h
      simp only [Option.some.injEq] at h
      subst h
      trivial
    | cons c rest =>
      rw [hsp] at h hsk
      simp only [List.length_cons] at hsk
      simp only at h
      split at h
      · have hsk1 := skipSpace_length rest
        cases hsp1 : skipSpace rest with
        | nil =>
          rw [hsp1] at h
          simp only [Option.some.injEq] at h
          subst h
          trivial
        | cons c1 rest1 =>
          rw [hsp1] at h hsk1
          simp only [List.length_cons] at hsk1
          simp only at h
          have hM := (decode_sound (2 * data.data.length + 2)).2.1 1 (c1 :: rest1) v.entries
            none (by simp only [List.length_cons]; omega)
          split at h
          · rename_i e0 heq
            simp only [Option.some.injEq] at h
            subst h
            split at heq
            · simp at heq
            · exact hM.1 _ heq
          · rename_i m rest2 saved1 heq
            have hs : leafOpt saved1 := by
              split at heq
              · simp only [Except.ok.injEq, Prod.mk.injEq] at heq
                obtain ⟨_, _, rfl⟩ := heq
                intro e0 h0
                simp at h0
              · exact (hM.2 m rest2 saved1 heq).2 (fun _ h0 => by simp at h0)
            split at h
            · simp only [Option.some.injEq] at h
              subst h
              trivial
            · exact hs e h
      · have hV := (decode_sound (2 * data.data.length + 2)).1 0 (c :: rest) none
          (by simp only [List.length_cons]; omega)
        cases hd : decodeValue (2 * data.data.length + 2) 0 (c :: rest) none with
        | error e' =>
          rw [hd] at h
          simp only [Option.some.injEq] at h
          subst h
          exact hV.1 _ hd
        | ok x =>
          obtain ⟨x, rest2, saved⟩ := x
          rw [hd] at h
          simp only at h
          split at h
          · simp only [Option.some.injEq] at h
            subst h
            trivial
          · split at h
            · simp at h
            · simp only [Option.some.injEq] at h
              subst h
              trivial
  refine ⟨hleaf, ?_⟩
  rintro rfl
  exact hleaf

/-! ### The shape of the bytes of `ToJSON` -/

/-- The text of the entries of two lists one after the other. -/
theorem entriesText_append (marshal : MarshalFn) (l₁ l₂ : List (String × Any)) :
    entriesText marshal (l₁ ++ l₂) = entriesText marshal l₁ ++ entriesText marshal l₂ := by
  induction l₁ with
  | nil => simp [entriesText]
  | cons p rest ih =>
    obtain ⟨k, x⟩ := p
    show entriesText marshal ((k, x) :: (rest ++ l₂)) = _
    simp only [entriesText, ih, String.append_assoc]

/-- What `ToJSON` returns: the error of the loop, or the fixed fields, the text
of the entries and the closing brace. -/
theorem ToJSON_cases (jsonMarshal : MarshalFn) (e : HttpError) (marshal : Option MarshalFn) :
    ((∃ p ∈ e.ExtensionMembers.entries, ((marshal.getD jsonMarshal) p.2).2 ≠ none) ∧
      ∃ err, e.ToJSON jsonMarshal marshal = (none, some err)) ∨
    ((∀ p ∈ e.ExtensionMembers.entries, ((marshal.getD jsonMarshal) p.2).2 = none) ∧
      e.ToJSON jsonMarshal marshal =
        (some (fixedFields e ++ entriesText (marshal.getD jsonMarshal) e.ExtensionMembers.entries
          ++ "\x7d"), none)) := by
  by_cases h : ∃ p ∈ e.ExtensionMembers.entries, ((marshal.getD jsonMarshal) p.2).2 ≠ none
  · left
    obtain ⟨k, v, cause, _, _, hl⟩ :=
      loop_error (marshal.getD jsonMarshal) e.ExtensionMembers.entries (fixedFields e) h
    exact ⟨h, _, by rw [ToJSON_eq_loop, hl]⟩
  · right
    push_neg at h
    exact ⟨h, by rw [ToJSON_eq_loop, loop_ok _ _ _ h]⟩

/-- The text of the fixed fields starts with the opening brace and ends with the
quote that closes the instance. -/
theorem fixedFields_shape (e : HttpError) :
    ∃ rest, fixedFields e = "\x7b" ++ rest ++ "\"" := by
  refine ⟨"\"type\":\"" ++ e.Type_ ++ "\",\"title\":\"" ++ e.Title ++ "\",\"status\":"
    ++ Itoa e.Status ++ ",\"detail\":\"" ++ e.Detail ++ "\",\"instance\":\"" ++ e.Instance, ?_⟩
  apply String.ext
  simp only [fixedFields, String.data_append, List.append_assoc]
  rfl

/-- The text of at least one entry ends with a comma. -/
theorem entriesText_ends (marshal : MarshalFn) (l : List (String × Any)) (h : l ≠ []) :
    ∃ pre, entriesText marshal l = pre ++ "," := by
  obtain ⟨l', p, rfl⟩ : ∃ l' p, l = l' ++ [p] :=
    ⟨l.dropLast, l.getLast h, (List.dropLast_append_getLast h).symm⟩
  obtain ⟨k, v⟩ := p
  refine ⟨entriesText marshal l' ++ (k ++ ":" ++ goString (marshal v).1), ?_⟩
  rw [entriesText_append]
  apply String.ext
  simp [entriesText, String.data_append]

/-- A text that ends with a double quote and the closing brace does not end with a
comma and the closing brace. -/
theorem not_ends_comma_brace (a pre : String) : a ++ "\"\x7d" ≠ pre ++ ",\x7d" := by
  intro h
  have hd := congrArg String.data h
  simp only [String.data_append] at hd
  have := (List.append_inj' hd rfl).2
  revert this
  decide

/-- The function `String.join` on a list with a first element. -/
theorem join_cons (a : String) (l : List String) : String.join (a :: l) = a ++ String.join l := by
  have hfold : ∀ (l : List String) (init : String),
      List.foldl (fun r s => r ++ s) init l = init ++ List.foldl (fun r s => r ++ s) "" l := by
    intro l
    induction l with
    | nil => intro init; simp
    | cons b l ih =>
      intro init
      rw [List.foldl_cons, List.foldl_cons, ih (init ++ b), ih ("" ++ b)]
      simp [String.append_assoc]
  show List.foldl (fun r s => r ++ s) "" (a :: l) = _
  rw [List.foldl_cons, hfold]
  simp [String.join]

/-- The text of the entries is the texts of the entries, joined. -/
theorem entriesText_eq_join (marshal : MarshalFn) (l : List (String × Any)) :
    entriesText marshal l =
      String.join (l.map fun p => p.1 ++ ":" ++ goString (marshal p.2).1 ++ ",") := by
  induction l with
  | nil => rfl
  | cons p rest ih =>
    obtain ⟨k, v⟩ := p
    rw [List.map_cons, join_cons, ← ih]
    simp only [entriesText, String.append_assoc]

/-! ## The claims -/

/-- C1: with no extension member (a nil or an empty map) and any marshal
function, nil included, `ToJSON` returns a nil error and exactly the five fixed
fields in order between braces, every string copied as it is between double
quotes, the status as its decimal text (a minus sign for a negative status,
then the decimal digits of its absolute value), single commas between the fields
and nothing between the quote that closes the instance and the closing brace. -/
theorem ToJSON_no_extension_members (jsonMarshal : MarshalFn) (e : HttpError)
    (marshal : Option MarshalFn)
    (h : e.ExtensionMembers = none ∨ e.ExtensionMembers = some []) :
    e.ToJSON jsonMarshal marshal =
      (some ("\x7b\"type\":\"" ++ e.Type_ ++ "\",\"title\":\"" ++ e.Title ++ "\",\"status\":"
        ++ Itoa e.Status ++ ",\"detail\":\"" ++ e.Detail ++ "\",\"instance\":\"" ++ e.Instance
        ++ "\"\x7d"), none) ∧
    (Itoa e.Status).data = (if e.Status < 0 then ['-'] else []) ++ formatNat e.Status.natAbs ∧
    (∀ c ∈ formatNat e.Status.natAbs, isDigit c = true) ∧
    digitsValue (formatNat e.Status.natAbs) = e.Status.natAbs := by
  have hl : e.ExtensionMembers.entries = [] := by
    rcases h with h | h <;> rw [h] <;> rfl
  refine ⟨?_, ?_, (formatNat_spec _).1, (formatNat_spec _).2.1⟩
  · rw [ToJSON_eq_loop, hl]
    simp only [ToJSON.loop, fixedFields, String.append_assoc]
    rfl
  · unfold Itoa
    split <;> rfl

/-- C1 at the error value of `New` with a marshal function that is never called. -/
theorem ToJSON_no_extension_members_witness :
    (New "Not Found" 404 "about:blank").ToJSON (fun _ => (none, none)) none =
      (some ("\x7b\"type\":\"" ++ "about:blank" ++ "\",\"title\":\"" ++ "Not Found"
        ++ "\",\"status\":" ++ Itoa 404 ++ ",\"detail\":\"" ++ "" ++ "\",\"instance\":\"" ++ ""
        ++ "\"\x7d"), none) ∧
    (Itoa 404).data = (if (404 : Int) < 0 then ['-'] else []) ++ formatNat (404 : Int).natAbs ∧
    (∀ c ∈ formatNat (404 : Int).natAbs, isDigit c = true) ∧
    digitsValue (formatNat (404 : Int).natAbs) = (404 : Int).natAbs :=
  ToJSON_no_extension_members (fun _ => (none, none)) (New "Not Found" 404 "about:blank") none
    (Or.inl rfl)

/-- C2, as stated, fails: with a double quote or a line feed in the type the
bytes of `ToJSON` are not JSON and `FromJSON` returns the error of the decoder;
with a backslash followed by `n` in the type `FromJSON` returns a type that holds
a line feed instead; with the status 2^53 + 1 `FromJSON` returns the status
2^53, the nearest `float64`. -/
theorem roundTrip_fails :
    (¬ ∃ (jsonMarshal : MarshalFn) (data : String) (he : HttpError),
      (HttpError.mk "a\"b" "" 0 "" "" none).ToJSON jsonMarshal none = (some data, none) ∧
      FromJSON stdUnmarshal data none = .ret (some he, none)) ∧
    (¬ ∃ (jsonMarshal : MarshalFn) (data : String) (he : HttpError),
      (HttpError.mk "a\nb" "" 0 "" "" none).ToJSON jsonMarshal none = (some data, none) ∧
      FromJSON stdUnmarshal data none = .ret (some he, none)) ∧
    (¬ ∃ (jsonMarshal : MarshalFn) (data : String) (he : HttpError),
      (HttpError.mk "a\\nb" "" 0 "" "" none).ToJSON jsonMarshal none = (some data, none) ∧
      FromJSON stdUnmarshal data none = .ret (some he, none) ∧ he.Type_ = "a\\nb") ∧
    (¬ ∃ (jsonMarshal : MarshalFn) (data : String) (he : HttpError),
      (HttpError.mk "" "" 9007199254740993 "" "" none).ToJSON jsonMarshal none
        = (some data, none) ∧
      FromJSON stdUnmarshal data none = .ret (some he, none) ∧
      he.Status = 9007199254740993) := by
  have h1 : FromJSON stdUnmarshal (fixedFields (HttpError.mk "a\"b" "" 0 "" "" none) ++ "\x7d") none
      = .ret (none, some (fmtErrorf "cannot unmarshal http error: "
          (.leaf "invalid character 'b' after object key:value pair"))) := by decide!
  have h2 : FromJSON stdUnmarshal (fixedFields (HttpError.mk "a\nb" "" 0 "" "" none) ++ "\x7d") none
      = .ret (none, some (fmtErrorf "cannot unmarshal http error: "
          (.leaf "invalid character '\\n' in string literal"))) := by decide!
  have h3 : FromJSON stdUnmarshal (fixedFields (HttpError.mk "a\\nb" "" 0 "" "" none) ++ "\x7d") none
      = .ret (some (HttpError.mk "a\nb" "" 0 "" "" (some [])), none) := by decide!
  have h4 : FromJSON stdUnmarshal
      (fixedFields (HttpError.mk "" "" 9007199254740993 "" "" none) ++ "\x7d") none
      = .ret (some (HttpError.mk "" "" 9007199254740992 "" "" (some [])), none) := by decide!
  refine ⟨?_, ?_, ?_, ?_⟩
  · rintro ⟨jm, data, he, hto, hfrom⟩
    rw [roundTrip_eq jm _ data rfl hto, h1] at hfrom
    simp at hfrom
  · rintro ⟨jm, data, he, hto, hfrom⟩
    rw [roundTrip_eq jm _ data rfl hto, h2] at hfrom
    simp at hfrom
  · rintro ⟨jm, data, he, hto, hfrom, hty⟩
    rw [roundTrip_eq jm _ data rfl hto, h3] at hfrom
    simp only [Outcome.ret.injEq, Prod.mk.injEq, Option.some.injEq, and_true] at hfrom
    rw [← hfrom] at hty
    revert hty
    decide
  · rintro ⟨jm, data, he, hto, hfrom, hst⟩
    rw [roundTrip_eq jm _ data rfl hto, h4] at hfrom
    simp only [Outcome.ret.injEq, Prod.mk.injEq, Option.some.injEq, and_true] at hfrom
    rw [← hfrom] at hst
    revert hst
    decide

/-- C2, amended: for an error value with no extension member whose type, title,
detail and instance hold no double quote, no backslash and no control character
and whose status is between -2^53 and 2^53, `ToJSON` with the nil marshal
function returns bytes on which `FromJSON` with the standard decoder returns a
nil error and an error value with the same five fixed fields. -/
theorem roundTrip_fixed_fields (jsonMarshal : MarshalFn) (e : HttpError)
    (hext : e.ExtensionMembers = none ∨ e.ExtensionMembers = some [])
    (hType : plain e.Type_) (hTitle : plain e.Title) (hDetail : plain e.Detail)
    (hInstance : plain e.Instance) (hStatus : -2 ^ 53 ≤ e.Status ∧ e.Status ≤ 2 ^ 53) :
    ∃ data he, e.ToJSON jsonMarshal none = (some data, none) ∧
      FromJSON stdUnmarshal data none = .ret (some he, none) ∧
      he.Type_ = e.Type_ ∧ he.Title = e.Title ∧ he.Status = e.Status ∧
      he.Detail = e.Detail ∧ he.Instance = e.Instance := by
  have hl : e.ExtensionMembers.entries = [] := by
    rcases hext with h | h <;> rw [h] <;> rfl
  have hto : e.ToJSON jsonMarshal none = (some (fixedFields e ++ "\x7d"), none) := by
    rw [ToJSON_eq_loop, hl]
    rfl
  have hfrom := FromJSON_eq stdUnmarshal (fixedFields e ++ "\x7d") none
  rw [Option.getD_none, stdUnmarshal_fixedFields e hType hTitle hDetail hInstance hStatus,
    afterUnmarshal_returns _ e.Title e.Type_ e.Detail e.Instance (e.Status : ℚ)
      (by simp [GoMap.index, GoMap.get?, GoMap.entries, List.find?])
      (by simp [GoMap.index, GoMap.get?, GoMap.entries, List.find?])
      (by simp [GoMap.index, GoMap.get?, GoMap.entries, List.find?])
      (by simp [GoMap.index, GoMap.get?, GoMap.entries, List.find?])
      (by simp [GoMap.index, GoMap.get?, GoMap.entries, List.find?])] at hfrom
  refine ⟨_, _, hto, hfrom, rfl, rfl, ?_, rfl, rfl⟩
  exact intOfFloat64_intCast _ ⟨by omega, by omega⟩

/-- C2, amended, at the error value of the example of the spec. -/
theorem roundTrip_fixed_fields_witness :
    ∃ data he,
      ((New "Not Found" 404 "https://example.com/probs/not-found").WithInstance
          "/orders/42").ToJSON exampleMarshal none = (some data, none) ∧
      FromJSON stdUnmarshal data none = .ret (some he, none) ∧
      he.Type_ = "https://example.com/probs/not-found" ∧ he.Title = "Not Found" ∧
      he.Status = 404 ∧ he.Detail = "" ∧ he.Instance = "/orders/42" :=
  roundTrip_fixed_fields exampleMarshal
    ((New "Not Found" 404 "https://example.com/probs/not-found").WithInstance "/orders/42")
    (Or.inl rfl) (by decide) (by decide) (by decide) (by decide) (by decide)

/-- C3, the code on the extension map with foo -> 1 and bar -> "x": whatever
`json.Marshal` writes for the two values and whichever entry the loop visits
first, the bytes of `ToJSON` have the first key, without quotes, right after the
quote that closes the instance, the standard decoder stops at its first letter
and `FromJSON` returns the error of the decoder, not an error value.  The last
part shows the bytes for a marshal function that writes `1` and `"x"`. -/
theorem roundTrip_extensions_fails :
    (¬ ∃ (jsonMarshal : MarshalFn) (data : String),
      (HttpError.mk "" "" 0 "" "" (some [("foo", .int 1), ("bar", .string "x")])).ToJSON
        jsonMarshal none = (some data, none) ∧
      FromJSON stdUnmarshal data none ≠
        .ret (none, some (.wrapError
          "cannot unmarshal http error: invalid character 'f' after object key:value pair"
          (.leaf "invalid character 'f' after object key:value pair")))) ∧
    (¬ ∃ (jsonMarshal : MarshalFn) (data : String),
      (HttpError.mk "" "" 0 "" "" (some [("bar", .string "x"), ("foo", .int 1)])).ToJSON
        jsonMarshal none = (some data, none) ∧
      FromJSON stdUnmarshal data none ≠
        .ret (none, some (.wrapError
          "cannot unmarshal http error: invalid character 'b' after object key:value pair"
          (.leaf "invalid character 'b' after object key:value pair")))) ∧
    (HttpError.mk "" "" 0 "" "" (some [("foo", .int 1), ("bar", .string "x")])).ToJSON
        exampleMarshal none
      = (some ("\x7b\"type\":\"\",\"title\":\"\",\"status\":0,\"detail\":\"\",\"instance\":\"\""
          ++ "foo:1,bar:\"x\",\x7d"), none) := by
  refine ⟨?_, ?_, by decide⟩
  · rintro ⟨jm, data, hto, hne⟩
    apply hne
    rw [roundTrip_extension_member jm
      (HttpError.mk "" "" 0 "" "" (some [("foo", .int 1), ("bar", .string "x")]))
      (by decide) (by decide) (by decide) (by decide)
      (by decide) "foo" (.int 1) [("bar", .string "x")] 'f' ['o', 'o', ':'] rfl rfl
      (by decide) (by decide) (by decide) data hto]
    rfl
  · rintro ⟨jm, data, hto, hne⟩
    apply hne
    rw [roundTrip_extension_member jm
      (HttpError.mk "" "" 0 "" "" (some [("bar", .string "x"), ("foo", .int 1)]))
      (by decide) (by decide) (by decide) (by decide)
      (by decide) "bar" (.string "x") [("foo", .int 1)] 'b' ['a', 'r', ':'] rfl rfl
      (by decide) (by decide) (by decide) data hto]
    rfl

/-- C4, the code at one extension member: `ToJSON` writes the key without
quotes right after the quote that closes the instance, and a comma between the
bytes of marshal and the closing brace. -/
theorem ToJSON_one_extension_member :
    (exampleError "k" (.int 1)).ToJSON exampleMarshal (some exampleMarshal) =
      (some ("\x7b\"type\":\"about:blank\",\"title\":\"Not Found\",\"status\":404,"
        ++ "\"detail\":\"no such order\",\"instance\":\"/orders/42\"k:1,\x7d"), none) ∧
    (exampleError "k" (.int 1)).ToJSON exampleMarshal (some exampleMarshal) ≠
      (some ("\x7b\"type\":\"about:blank\",\"title\":\"Not Found\",\"status\":404,"
        ++ "\"detail\":\"no such order\",\"instance\":\"/orders/42\",\"k\":1\x7d"), none) := by
  constructor <;> decide

/-- C5: when marshal has an error on the value of an extension member, `ToJSON`
returns nil bytes and a non-nil error; the error names a key of
`ExtensionMembers` on whose value marshal has an error: its message is
"cannot marshal extension member ", the key, ": " and the message of the cause,
and it wraps the cause. -/
theorem ToJSON_marshal_error (jsonMarshal : MarshalFn) (e : HttpError)
    (marshal : Option MarshalFn)
    (h : ∃ p ∈ e.ExtensionMembers.entries, ((marshal.getD jsonMarshal) p.2).2 ≠ none) :
    ∃ k v cause err, (k, v) ∈ e.ExtensionMembers.entries ∧
      ((marshal.getD jsonMarshal) v).2 = some cause ∧
      e.ToJSON jsonMarshal marshal = (none, some err) ∧
      err.Error = "cannot marshal extension member " ++ k ++ ": " ++ cause.Error ∧
      err.Unwrap = some cause := by
  obtain ⟨k, v, cause, hmem, hc, hl⟩ :=
    loop_error (marshal.getD jsonMarshal) e.ExtensionMembers.entries (fixedFields e) h
  refine ⟨k, v, cause, fmtErrorf ("cannot marshal extension member " ++ k ++ ": ") cause,
    hmem, hc, ?_, rfl, rfl⟩
  rw [ToJSON_eq_loop, hl]

/-- C5 at an extension member whose value is a function. -/
theorem ToJSON_marshal_error_witness :
    ∃ k v cause err, (k, v) ∈ (exampleError "x" .func).ExtensionMembers.entries ∧
      (((some exampleMarshal).getD exampleMarshal) v).2 = some cause ∧
      (exampleError "x" .func).ToJSON exampleMarshal (some exampleMarshal) = (none, some err) ∧
      err.Error = "cannot marshal extension member " ++ k ++ ": " ++ cause.Error ∧
      err.Unwrap = some cause :=
  ToJSON_marshal_error exampleMarshal (exampleError "x" .func) (some exampleMarshal)
    ⟨("x", .func), List.mem_cons_self _ _, by simp [exampleMarshal]⟩

/-- C6: when `FromJSON` returns an error value with a nil error, its
`ExtensionMembers` is the mapping the decoder left, without the five reserved
keys: none of the five keys is in it, every other key has the value the decoder
gave it, no other key is in it, and it is the empty map, not nil, when the
decoded mapping has the reserved keys only. -/
theorem FromJSON_extension_members (jsonUnmarshal : UnmarshalFn) (data : String)
    (unmarshal : Option UnmarshalFn) (he : HttpError)
    (h : FromJSON jsonUnmarshal data unmarshal = .ret (some he, none)) :
    ∃ m : List (String × Any),
      (unmarshal.getD jsonUnmarshal) data (some []) = (some m, none) ∧
      he.ExtensionMembers = some (m.filter (fun p => !reservedKeys.contains p.1)) ∧
      (∀ k ∈ reservedKeys, he.ExtensionMembers.get? k = none) ∧
      (∀ k, k ∉ reservedKeys → he.ExtensionMembers.get? k = GoMap.get? (some m) k) ∧
      ((∀ p ∈ m, p.1 ∈ reservedKeys) → he.ExtensionMembers = some []) := by
  rw [FromJSON_eq] at h
  obtain ⟨v, t, f, ty, d, i, hr, ht, hs, hty, hd, hi⟩ := afterUnmarshal_inv _ _ h
  rw [hr, afterUnmarshal_returns v t ty d i f ht hs hty hd hi] at h
  cases v with
  | none => simp [GoMap.index, GoMap.get?, GoMap.entries] at ht
  | some m =>
    rw [delete_reserved] at h
    have hext : he.ExtensionMembers = some (m.filter (fun p => !reservedKeys.contains p.1)) := by
      have h' := congrArg
        (fun o => match o with
          | Outcome.ret (some x, _) => x.ExtensionMembers
          | _ => none) h
      simpa using h'.symm
    refine ⟨m, hr, hext, ?_, ?_, ?_⟩
    · intro k hk
      rw [hext, get?_filter_reserved, if_pos hk]
    · intro k hk
      rw [hext, get?_filter_reserved, if_neg hk]
    · intro hall
      rw [hext]
      congr 1
      rw [List.filter_eq_nil_iff]
      intro p hp
      simpa using hall p hp

/-- C6 at a payload with the five fixed fields and one more member, read by the standard decoder. -/
theorem FromJSON_extension_members_witness :
    ∃ m : List (String × Any),
      ((none : Option UnmarshalFn).getD stdUnmarshal)
        "\x7b\"type\":\"a\",\"title\":\"b\",\"status\":404,\"detail\":\"c\",\"instance\":\"d\",\"foo\":1.5\x7d"
        (some []) = (some m, none) ∧
      (HttpError.mk "a" "b" 404 "c" "d" (some [("foo", .float64 (3 / 2))])).ExtensionMembers
        = some (m.filter (fun p => !reservedKeys.contains p.1)) ∧
      (∀ k ∈ reservedKeys,
        (HttpError.mk "a" "b" 404 "c" "d" (some [("foo", .float64 (3 / 2))])).ExtensionMembers.get? k
          = none) ∧
      (∀ k, k ∉ reservedKeys →
        (HttpError.mk "a" "b" 404 "c" "d" (some [("foo", .float64 (3 / 2))])).ExtensionMembers.get? k
          = GoMap.get? (some m) k) ∧
      ((∀ p ∈ m, p.1 ∈ reservedKeys) →
        (HttpError.mk "a" "b" 404 "c" "d" (some [("foo", .float64 (3 / 2))])).ExtensionMembers
          = some []) :=
  FromJSON_extension_members stdUnmarshal
    "\x7b\"type\":\"a\",\"title\":\"b\",\"status\":404,\"detail\":\"c\",\"instance\":\"d\",\"foo\":1.5\x7d"
    none (HttpError.mk "a" "b" 404 "c" "d" (some [("foo", .float64 (3 / 2))])) (by decide!)

/-- C7, as stated, fails on a number beyond the range of `int`: the standard
decoder reads the status `1e19` as the number 10^19, whose truncation is 10^19,
and `FromJSON` returns the status -2^63.  It also fails on a number that is not a
`float64`: when an unmarshal function leaves the Go `int` 404 at the key status,
`FromJSON` panics. -/
theorem FromJSON_status_out_of_range :
    (stdUnmarshal
        "\x7b\"title\":\"\",\"status\":1e19,\"type\":\"\",\"detail\":\"\",\"instance\":\"\"\x7d"
        (some [])).2 = none ∧
    GoMap.get? (stdUnmarshal
        "\x7b\"title\":\"\",\"status\":1e19,\"type\":\"\",\"detail\":\"\",\"instance\":\"\"\x7d"
        (some [])).1 "status" = some (.float64 10000000000000000000) ∧
    truncate 10000000000000000000 = 10000000000000000000 ∧
    FromJSON stdUnmarshal
        "\x7b\"title\":\"\",\"status\":1e19,\"type\":\"\",\"detail\":\"\",\"instance\":\"\"\x7d"
        none
      = .ret (some (HttpError.mk "" "" (-9223372036854775808) "" "" (some [])), none) ∧
    (exampleUnmarshal "" (some [])).2 = none ∧
    GoMap.get? (exampleUnmarshal "" (some [])).1 "status" = some (.int 404) ∧
    FromJSON stdUnmarshal "" (some exampleUnmarshal)
      = .panic "interface conversion: interface \x7b\x7d is int, not float64" := by
  refine ⟨by decide!, by decide!, by decide!, by decide!, by decide!, by decide!, by decide!⟩

/-- C7, amended: when the decoder has no error and leaves a mapping with strings
at the keys title, type, detail and instance and a `float64` at the key status,
and the number without its fraction fits the 64-bit `int`, `FromJSON` returns a nil
error and an error value with those four strings and with the number rounded
toward zero as its status. -/
theorem FromJSON_fixed_fields (jsonUnmarshal : UnmarshalFn) (data : String)
    (unmarshal : Option UnmarshalFn) (v : GoMap) (title type_ detail instance_ : String)
    (status : ℚ)
    (hu : (unmarshal.getD jsonUnmarshal) data (some []) = (v, none))
    (htitle : v.get? "title" = some (.string title))
    (htype : v.get? "type" = some (.string type_))
    (hdetail : v.get? "detail" = some (.string detail))
    (hinstance : v.get? "instance" = some (.string instance_))
    (hstatus : v.get? "status" = some (.float64 status))
    (hrange : -2 ^ 63 ≤ truncate status ∧ truncate status < 2 ^ 63) :
    ∃ he, FromJSON jsonUnmarshal data unmarshal = .ret (some he, none) ∧
      he.Title = title ∧ he.Type_ = type_ ∧ he.Detail = detail ∧ he.Instance = instance_ ∧
      he.Status = truncate status ∧
      he.Status = (if 0 ≤ status then ⌊status⌋ else ⌈status⌉) := by
  have hidx : ∀ k x, v.get? k = some x → v.index k = x := by
    intro k x hk
    simp [GoMap.index, hk]
  refine ⟨HttpError.mk type_ title (intOfFloat64 status) detail instance_
    (((((v.delete "title").delete "status").delete "type").delete "detail").delete "instance"),
    ?_, rfl, rfl, rfl, rfl, ?_, ?_⟩
  · rw [FromJSON_eq, hu]
    exact afterUnmarshal_returns v title type_ detail instance_ status (hidx _ _ htitle)
      (hidx _ _ hstatus) (hidx _ _ htype) (hidx _ _ hdetail) (hidx _ _ hinstance)
  · show intOfFloat64 status = _
    unfold intOfFloat64
    rw [if_pos hrange]
  · show intOfFloat64 status = _
    unfold intOfFloat64
    rw [if_pos hrange, truncate_eq]

/-- C7, amended, at a payload whose status has a fraction, read by the standard decoder. -/
theorem FromJSON_fixed_fields_witness :
    ∃ he, FromJSON stdUnmarshal
        "\x7b\"title\":\"Not Found\",\"status\":-404.75,\"type\":\"about:blank\",\"detail\":\"\",\"instance\":\"/a\"\x7d"
        none = .ret (some he, none) ∧
      he.Title = "Not Found" ∧ he.Type_ = "about:blank" ∧ he.Detail = "" ∧ he.Instance = "/a" ∧
      he.Status = truncate (-1619 / 4) ∧
      he.Status = (if 0 ≤ (-1619 / 4 : ℚ) then ⌊(-1619 / 4 : ℚ)⌋ else ⌈(-1619 / 4 : ℚ)⌉) :=
  FromJSON_fixed_fields stdUnmarshal
    "\x7b\"title\":\"Not Found\",\"status\":-404.75,\"type\":\"about:blank\",\"detail\":\"\",\"instance\":\"/a\"\x7d"
    none
    (some [("title", .string "Not Found"), ("status", .float64 (-1619 / 4)),
      ("type", .string "about:blank"), ("detail", .string ""), ("instance", .string "/a")])
    "Not Found" "about:blank" "" "/a" (-1619 / 4)
    (by decide!) (by decide!) (by decide!) (by decide!) (by decide!) (by decide!) (by decide!)

/-- C8: when the decoder has no error and the mapping it leaves lacks one of the
five keys title, status, type, detail, instance, or holds at title, type, detail
or instance a value that is not a string, or at status a value that is not a
`float64`, `FromJSON` panics on a type assertion: it returns neither an error
value nor an error.  The witness is the input with no member at all. -/
theorem FromJSON_malformed (jsonUnmarshal : UnmarshalFn) (data : String)
    (unmarshal : Option UnmarshalFn) (v : GoMap)
    (hu : (unmarshal.getD jsonUnmarshal) data (some []) = (v, none))
    (h : (∀ s, v.get? "title" ≠ some (.string s)) ∨ (∀ f, v.get? "status" ≠ some (.float64 f)) ∨
      (∀ s, v.get? "type" ≠ some (.string s)) ∨ (∀ s, v.get? "detail" ≠ some (.string s)) ∨
      (∀ s, v.get? "instance" ≠ some (.string s))) :
    ∃ msg, FromJSON jsonUnmarshal data unmarshal = .panic msg := by
  have hidx : ∀ k x, (x ≠ Any.null) → v.index k = x → v.get? k = some x := by
    intro k x hx hk
    unfold GoMap.index at hk
    cases hg : v.get? k with
    | none => rw [hg] at hk; exact absurd hk.symm hx
    | some y => rw [hg] at hk; simpa using hk
  rw [FromJSON_eq, hu]
  apply afterUnmarshal_panics
  rcases h with h | h | h | h | h
  · exact Or.inl fun s hs => h s (hidx _ _ (by simp) hs)
  · exact Or.inr (Or.inl fun s hs => h s (hidx _ _ (by simp) hs))
  · exact Or.inr (Or.inr (Or.inl fun s hs => h s (hidx _ _ (by simp) hs)))
  · exact Or.inr (Or.inr (Or.inr (Or.inl fun s hs => h s (hidx _ _ (by simp) hs))))
  · exact Or.inr (Or.inr (Or.inr (Or.inr fun s hs => h s (hidx _ _ (by simp) hs))))

/-- C8 at the bytes of the empty object, read by the standard decoder. -/
theorem FromJSON_malformed_witness :
    ∃ msg, FromJSON stdUnmarshal "\x7b\x7d" none = .panic msg :=
  FromJSON_malformed stdUnmarshal "\x7b\x7d" none (some []) (by decide!)
    (Or.inl fun s => by simp [GoMap.get?, GoMap.entries])

/-- C9: when the unmarshal function (the given one, or the standard one for
nil) returns an error, `FromJSON` returns a nil error value and an error whose
message is "cannot unmarshal http error: " followed by the message of the cause,
and which wraps the cause. -/
theorem FromJSON_unmarshal_error (jsonUnmarshal : UnmarshalFn) (data : String)
    (unmarshal : Option UnmarshalFn) (cause : GoError)
    (h : ((unmarshal.getD jsonUnmarshal) data (some [])).2 = some cause) :
    ∃ err, FromJSON jsonUnmarshal data unmarshal = .ret (none, some err) ∧
      err.Error = "cannot unmarshal http error: " ++ cause.Error ∧
      err.Unwrap = some cause := by
  refine ⟨fmtErrorf "cannot unmarshal http error: " cause, ?_, rfl, rfl⟩
  rw [FromJSON_eq]
  rcases hr : (unmarshal.getD jsonUnmarshal) data (some []) with ⟨v, err⟩
  rw [hr] at h
  simp only at h
  subst h
  rfl

/-- C9 at bytes that are not JSON, read by the standard decoder. -/
theorem FromJSON_unmarshal_error_witness :
    ∃ err, FromJSON stdUnmarshal "not json" none = .ret (none, some err) ∧
      err.Error = "cannot unmarshal http error: "
        ++ (GoError.leaf "invalid character 'o' in literal null (expecting 'u')").Error ∧
      err.Unwrap = some (GoError.leaf "invalid character 'o' in literal null (expecting 'u')") :=
  FromJSON_unmarshal_error stdUnmarshal "not json" none
    (GoError.leaf "invalid character 'o' in literal null (expecting 'u')") (by decide!)

/-- C10: when `ExtensionMembers` has the key "type" and marshal has no error,
`ToJSON` leaves the fixed type field as it is: the output starts with the five
fixed fields with the values of `e`, and the entry of the key "type" comes after
them (between the entries visited before and after it), so the output has the
key type twice, once as the fixed field and once as `type:` followed by the bytes
of marshal and a comma. -/
theorem ToJSON_type_collision (jsonMarshal : MarshalFn) (e : HttpError)
    (marshal : Option MarshalFn) (v : Any)
    (hmem : ("type", v) ∈ e.ExtensionMembers.entries)
    (hok : ∀ p ∈ e.ExtensionMembers.entries, ((marshal.getD jsonMarshal) p.2).2 = none) :
    ∃ before after, e.ExtensionMembers.entries = before ++ ("type", v) :: after ∧
      e.ToJSON jsonMarshal marshal =
        (some ("\x7b\"type\":\"" ++ e.Type_ ++ "\",\"title\":\"" ++ e.Title ++ "\",\"status\":"
          ++ Itoa e.Status ++ ",\"detail\":\"" ++ e.Detail ++ "\",\"instance\":\""
          ++ e.Instance ++ "\""
          ++ entriesText (marshal.getD jsonMarshal) before
          ++ "type" ++ ":" ++ goString ((marshal.getD jsonMarshal) v).1 ++ ","
          ++ entriesText (marshal.getD jsonMarshal) after ++ "\x7d"), none) := by
  obtain ⟨before, after, hsplit⟩ := List.append_of_mem hmem
  refine ⟨before, after, hsplit, ?_⟩
  have happ : ∀ (m : MarshalFn) (l₁ l₂ : List (String × Any)),
      entriesText m (l₁ ++ l₂) = entriesText m l₁ ++ entriesText m l₂ := by
    intro m l₁ l₂
    induction l₁ with
    | nil => simp [entriesText]
    | cons p rest ih =>
      obtain ⟨k, x⟩ := p
      show entriesText m ((k, x) :: (rest ++ l₂)) = _
      simp only [entriesText, ih, String.append_assoc]
  rw [ToJSON_eq_loop, loop_ok _ _ _ hok, hsplit, happ]
  simp only [fixedFields, entriesText, String.append_assoc]

/-- C10 at an extension map whose only key is type. -/
theorem ToJSON_type_collision_witness :
    ∃ before after,
      (exampleError "type" (.string "x")).ExtensionMembers.entries
        = before ++ ("type", .string "x") :: after ∧
      (exampleError "type" (.string "x")).ToJSON exampleMarshal none =
        (some ("\x7b\"type\":\"" ++ (exampleError "type" (.string "x")).Type_
          ++ "\",\"title\":\"" ++ (exampleError "type" (.string "x")).Title ++ "\",\"status\":"
          ++ Itoa (exampleError "type" (.string "x")).Status ++ ",\"detail\":\""
          ++ (exampleError "type" (.string "x")).Detail ++ "\",\"instance\":\""
          ++ (exampleError "type" (.string "x")).Instance ++ "\""
          ++ entriesText ((none : Option MarshalFn).getD exampleMarshal) before
          ++ "type" ++ ":"
          ++ goString (((none : Option MarshalFn).getD exampleMarshal) (.string "x")).1 ++ ","
          ++ entriesText ((none : Option MarshalFn).getD exampleMarshal) after ++ "\x7d"), none) :=
  ToJSON_type_collision exampleMarshal (exampleError "type" (.string "x")) none (.string "x")
    (List.mem_cons_self _ _) (by simp [exampleError, GoMap.entries, exampleMarshal])

/-- C11, as stated, fails with no extension member: the bytes of `ToJSON` for the
error value of `New` end with the quote that closes the instance and the brace,
not with a comma and the brace, whatever the marshal function. -/
theorem ToJSON_no_trailing_comma :
    (New "Not Found" 404 "about:blank").ToJSON exampleMarshal none =
      (some ("\x7b\"type\":\"about:blank\",\"title\":\"Not Found\",\"status\":404,"
        ++ "\"detail\":\"\",\"instance\":\"\"\x7d"), none) ∧
    (¬ ∃ pre, ("\x7b\"type\":\"about:blank\",\"title\":\"Not Found\",\"status\":404,"
        ++ "\"detail\":\"\",\"instance\":\"\"\x7d") = pre ++ ",\x7d") ∧
    (¬ ∃ (jsonMarshal : MarshalFn) (marshal : Option MarshalFn) (pre : String),
      (New "Not Found" 404 "about:blank").ToJSON jsonMarshal marshal
        = (some (pre ++ ",\x7d"), none)) := by
  refine ⟨by decide, ?_, ?_⟩
  · rintro ⟨pre, h⟩
    exact not_ends_comma_brace
      ("\x7b\"type\":\"about:blank\",\"title\":\"Not Found\",\"status\":404,"
        ++ "\"detail\":\"\",\"instance\":\"") pre (by rw [← h]; decide)
  · rintro ⟨jm, m, pre, h⟩
    rcases ToJSON_cases jm (New "Not Found" 404 "about:blank") m with ⟨_, err, he⟩ | ⟨_, he⟩
    · rw [he] at h; simp at h
    · rw [he] at h
      simp only [Prod.mk.injEq, Option.some.injEq, and_true] at h
      obtain ⟨rest, hrest⟩ := fixedFields_shape (New "Not Found" 404 "about:blank")
      rw [hrest] at h
      refine not_ends_comma_brace ("\x7b" ++ rest) pre ?_
      rw [← h]
      apply String.ext
      simp [New, GoMap.entries, entriesText, String.data_append]

/-- C11, amended: when `ToJSON` returns bytes and a nil error, a comma stands
right before the closing brace exactly when `ExtensionMembers` has an entry: the
bytes end with a comma and the brace then, and with the quote that closes the
instance and the brace when `ExtensionMembers` is nil or empty. -/
theorem ToJSON_trailing_comma (jsonMarshal : MarshalFn) (e : HttpError)
    (marshal : Option MarshalFn) (out : String)
    (h : e.ToJSON jsonMarshal marshal = (some out, none)) :
    (e.ExtensionMembers.entries ≠ [] → ∃ pre, out = pre ++ ",\x7d") ∧
    (e.ExtensionMembers.entries = [] → ∃ pre, out = pre ++ "\"\x7d") ∧
    ((∃ pre, out = pre ++ ",\x7d") ↔ e.ExtensionMembers.entries ≠ []) := by
  have hout : out = fixedFields e
      ++ entriesText (marshal.getD jsonMarshal) e.ExtensionMembers.entries ++ "\x7d" := by
    rcases ToJSON_cases jsonMarshal e marshal with ⟨_, err, he⟩ | ⟨_, he⟩
    · rw [he] at h; simp at h
    · rw [he] at h
      simp only [Prod.mk.injEq, Option.some.injEq, and_true] at h
      exact h.symm
  have h1 : e.ExtensionMembers.entries ≠ [] → ∃ pre, out = pre ++ ",\x7d" := by
    intro hne
    obtain ⟨pre, hpre⟩ := entriesText_ends (marshal.getD jsonMarshal) _ hne
    refine ⟨fixedFields e ++ pre, ?_⟩
    rw [hout, hpre]
    apply String.ext
    simp [String.data_append]
  have h2 : e.ExtensionMembers.entries = [] → ∃ pre, out = pre ++ "\"\x7d" := by
    intro hnil
    obtain ⟨rest, hrest⟩ := fixedFields_shape e
    refine ⟨"\x7b" ++ rest, ?_⟩
    rw [hout, hnil, hrest]
    apply String.ext
    simp [entriesText, String.data_append]
  refine ⟨h1, h2, ?_, h1⟩
  rintro ⟨pre, hpre⟩ hnil
  obtain ⟨pre', hpre'⟩ := h2 hnil
  rw [hpre'] at hpre
  exact not_ends_comma_brace _ _ hpre

/-- C11, amended, at an error value with one extension member. -/
theorem ToJSON_trailing_comma_witness :
    ((exampleError "k" (.int 1)).ExtensionMembers.entries ≠ [] →
      ∃ pre, ("\x7b\"type\":\"about:blank\",\"title\":\"Not Found\",\"status\":404,"
        ++ "\"detail\":\"no such order\",\"instance\":\"/orders/42\"k:1,\x7d") = pre ++ ",\x7d") ∧
    ((exampleError "k" (.int 1)).ExtensionMembers.entries = [] →
      ∃ pre, ("\x7b\"type\":\"about:blank\",\"title\":\"Not Found\",\"status\":404,"
        ++ "\"detail\":\"no such order\",\"instance\":\"/orders/42\"k:1,\x7d") = pre ++ "\"\x7d") ∧
    ((∃ pre, ("\x7b\"type\":\"about:blank\",\"title\":\"Not Found\",\"status\":404,"
        ++ "\"detail\":\"no such order\",\"instance\":\"/orders/42\"k:1,\x7d") = pre ++ ",\x7d") ↔
      (exampleError "k" (.int 1)).ExtensionMembers.entries ≠ []) :=
  ToJSON_trailing_comma exampleMarshal (exampleError "k" (.int 1)) (some exampleMarshal) _
    (by decide)

/-- C12: for every title, status and type URL, `New` returns an error value with
that title, status and type, an empty detail, an empty instance and a nil
`ExtensionMembers`. -/
theorem New_fields (title : String) (status : Int) (typeUrl : String) :
    (New title status typeUrl).Title = title ∧ (New title status typeUrl).Status = status ∧
    (New title status typeUrl).Type_ = typeUrl ∧ (New title status typeUrl).Detail = "" ∧
    (New title status typeUrl).Instance = "" ∧
    (New title status typeUrl).ExtensionMembers = none :=
  ⟨rfl, rfl, rfl, rfl, rfl, rfl⟩

/-- C13: `WithDetail` returns the receiver with the detail set and the type,
title, status, instance and extension members as they were; `WithInstance`
returns the receiver with the instance set and the type, title, status, detail
and extension members as they were.  Both are total: neither has an error. -/
theorem With_frame (e : HttpError) (d i : String) :
    ((e.WithDetail d).Detail = d ∧ (e.WithDetail d).Type_ = e.Type_ ∧
      (e.WithDetail d).Title = e.Title ∧ (e.WithDetail d).Status = e.Status ∧
      (e.WithDetail d).Instance = e.Instance ∧
      (e.WithDetail d).ExtensionMembers = e.ExtensionMembers) ∧
    ((e.WithInstance i).Instance = i ∧ (e.WithInstance i).Type_ = e.Type_ ∧
      (e.WithInstance i).Title = e.Title ∧ (e.WithInstance i).Status = e.Status ∧
      (e.WithInstance i).Detail = e.Detail ∧
      (e.WithInstance i).ExtensionMembers = e.ExtensionMembers) :=
  ⟨⟨rfl, rfl, rfl, rfl, rfl, rfl⟩, ⟨rfl, rfl, rfl, rfl, rfl, rfl⟩⟩

/-- C14: `Error` is the title, " on ", the instance, " reference " and the type,
one after the other, nothing escaped and empty fields left empty; so it is for
the two examples of the spec. -/
theorem Error_text (e : HttpError) :
    e.Error = e.Title ++ " on " ++ e.Instance ++ " reference " ++ e.Type_ ∧
    (New "Not Found" 0 "").Error = "Not Found on  reference " ∧
    ((New "Not Found" 404 "https://example.com/probs/not-found").WithInstance
        "/orders/42").Error
      = "Not Found on /orders/42 reference https://example.com/probs/not-found" := by
  refine ⟨?_, by decide, by decide⟩
  unfold HttpError.Error
  simp only [String.append_assoc]
  apply String.ext
  simp [String.data_append]

/-- C15: a nil codec function is the standard one: `ToJSON` with a nil marshal
function returns what it returns with `json.Marshal` (the same bytes and the
same error, the extension map being visited in the same order), and `FromJSON`
with a nil unmarshal function returns what it returns with `json.Unmarshal`. -/
theorem nil_codec_is_standard (jsonMarshal : MarshalFn) (jsonUnmarshal : UnmarshalFn)
    (e : HttpError) (data : String) :
    e.ToJSON jsonMarshal none = e.ToJSON jsonMarshal (some jsonMarshal) ∧
    FromJSON jsonUnmarshal data none = FromJSON jsonUnmarshal data (some jsonUnmarshal) :=
  ⟨rfl, rfl⟩

/-- C16: when marshal has no error on any extension value, the bytes of `ToJSON`
are, for an ordering of the entries of `ExtensionMembers` (each entry once), the
opening brace and the five fixed fields, then for each entry in turn its key
without quotes, a colon, the bytes of marshal and a comma, then the closing
brace: a comma follows every entry and none stands between the instance and the
first entry. -/
theorem ToJSON_raw_entries (jsonMarshal : MarshalFn) (e : HttpError)
    (marshal : Option MarshalFn)
    (hok : ∀ p ∈ e.ExtensionMembers.entries, ((marshal.getD jsonMarshal) p.2).2 = none) :
    ∃ ordering : List (String × Any), ordering.Perm e.ExtensionMembers.entries ∧
      e.ToJSON jsonMarshal marshal =
        (some ("\x7b\"type\":\"" ++ e.Type_ ++ "\",\"title\":\"" ++ e.Title ++ "\",\"status\":"
          ++ Itoa e.Status ++ ",\"detail\":\"" ++ e.Detail ++ "\",\"instance\":\""
          ++ e.Instance ++ "\""
          ++ entriesText (marshal.getD jsonMarshal) ordering ++ "\x7d"), none) ∧
      entriesText (marshal.getD jsonMarshal) ordering =
        String.join (ordering.map fun p =>
          p.1 ++ ":" ++ goString ((marshal.getD jsonMarshal) p.2).1 ++ ",") := by
  refine ⟨e.ExtensionMembers.entries, List.Perm.refl _, ?_, ?_⟩
  · rw [ToJSON_eq_loop, loop_ok _ _ _ hok]
    simp only [fixedFields, String.append_assoc]
  · exact entriesText_eq_join _ _

/-- C16 at the extension map with foo -> 1 and bar -> "x". -/
theorem ToJSON_raw_entries_witness :
    ∃ ordering : List (String × Any),
      ordering.Perm
        (HttpError.mk "" "" 0 "" "" (some [("foo", .int 1), ("bar", .string "x")])).ExtensionMembers.entries ∧
      (HttpError.mk "" "" 0 "" "" (some [("foo", .int 1), ("bar", .string "x")])).ToJSON
          exampleMarshal none =
        (some ("\x7b\"type\":\""
          ++ (HttpError.mk "" "" 0 "" "" (some [("foo", .int 1), ("bar", .string "x")])).Type_
          ++ "\",\"title\":\""
          ++ (HttpError.mk "" "" 0 "" "" (some [("foo", .int 1), ("bar", .string "x")])).Title
          ++ "\",\"status\":"
          ++ Itoa (HttpError.mk "" "" 0 "" "" (some [("foo", .int 1), ("bar", .string "x")])).Status
          ++ ",\"detail\":\""
          ++ (HttpError.mk "" "" 0 "" "" (some [("foo", .int 1), ("bar", .string "x")])).Detail
          ++ "\",\"instance\":\""
          ++ (HttpError.mk "" "" 0 "" "" (some [("foo", .int 1), ("bar", .string "x")])).Instance
          ++ "\""
          ++ entriesText ((none : Option MarshalFn).getD exampleMarshal) ordering ++ "\x7d"),
          none) ∧
      entriesText ((none : Option MarshalFn).getD exampleMarshal) ordering =
        String.join (ordering.map fun p =>
          p.1 ++ ":" ++ goString (((none : Option MarshalFn).getD exampleMarshal) p.2).1 ++ ",") :=
  ToJSON_raw_entries exampleMarshal
    (HttpError.mk "" "" 0 "" "" (some [("foo", .int 1), ("bar", .string "x")])) none
    (by decide)

/-- C17: `ToJSON` returns an error exactly when marshal has an error on the value
of an entry of `ExtensionMembers`, in whatever order the map is visited; it
returns none when `ExtensionMembers` is nil or empty; and when it returns none
the bytes are not nil, start with the opening brace and end with the closing
one. -/
theorem ToJSON_error_iff (jsonMarshal : MarshalFn) (e : HttpError)
    (marshal : Option MarshalFn) :
    ((e.ToJSON jsonMarshal marshal).2 ≠ none ↔
      ∃ p ∈ e.ExtensionMembers.entries, ((marshal.getD jsonMarshal) p.2).2 ≠ none) ∧
    (∀ e' : HttpError, e'.ExtensionMembers.entries.Perm e.ExtensionMembers.entries →
      ((e'.ToJSON jsonMarshal marshal).2 ≠ none ↔ (e.ToJSON jsonMarshal marshal).2 ≠ none)) ∧
    (e.ExtensionMembers = none ∨ e.ExtensionMembers = some [] →
      (e.ToJSON jsonMarshal marshal).2 = none) ∧
    ((e.ToJSON jsonMarshal marshal).2 = none →
      ∃ out, (e.ToJSON jsonMarshal marshal).1 = some out ∧
        (∃ rest, out = "\x7b" ++ rest) ∧ (∃ pre, out = pre ++ "\x7d")) := by
  have key : ∀ e : HttpError, ((e.ToJSON jsonMarshal marshal).2 ≠ none ↔
      ∃ p ∈ e.ExtensionMembers.entries, ((marshal.getD jsonMarshal) p.2).2 ≠ none) := by
    intro e
    rcases ToJSON_cases jsonMarshal e marshal with ⟨hex, err, he⟩ | ⟨hall, he⟩
    · rw [he]
      simp only [ne_eq, reduceCtorEq, not_false_eq_true, true_iff]
      exact hex
    · rw [he]
      simp only [ne_eq, not_true_eq_false, false_iff, not_exists, not_and, not_not]
      exact hall
  refine ⟨key e, ?_, ?_, ?_⟩
  · intro e' hperm
    rw [key e', key e]
    constructor
    · rintro ⟨p, hp, hne⟩
      exact ⟨p, hperm.mem_iff.mp hp, hne⟩
    · rintro ⟨p, hp, hne⟩
      exact ⟨p, hperm.mem_iff.mpr hp, hne⟩
  · intro hnil
    have hl : e.ExtensionMembers.entries = [] := by
      rcases hnil with h | h <;> rw [h] <;> rfl
    by_contra hne
    obtain ⟨p, hp, _⟩ := (key e).mp hne
    rw [hl] at hp
    simp at hp
  · intro hnone
    rcases ToJSON_cases jsonMarshal e marshal with ⟨_, err, he⟩ | ⟨_, he⟩
    · rw [he] at hnone; simp at hnone
    · obtain ⟨rest, hrest⟩ := fixedFields_shape e
      refine ⟨_, by rw [he], ⟨rest ++ "\"" ++ entriesText (marshal.getD jsonMarshal)
        e.ExtensionMembers.entries ++ "\x7d", ?_⟩, ⟨_, rfl⟩⟩
      rw [hrest]
      simp only [String.append_assoc]

/-- C18: `ToJSON` is not injective on the fixed fields: the two error values
`collisionLeft` and `collisionRight` have no extension member, differ in type
and in title and have the same bytes under every marshal function; so no function
of the bytes, and no unmarshal function given to `FromJSON`, gives back the fixed
fields of every error value that was serialized. -/
theorem ToJSON_not_injective :
    collisionLeft.Type_ ≠ collisionRight.Type_ ∧ collisionLeft.Title ≠ collisionRight.Title ∧
    collisionLeft.Status = collisionRight.Status ∧ collisionLeft.Detail = collisionRight.Detail ∧
    collisionLeft.Instance = collisionRight.Instance ∧
    collisionLeft.ExtensionMembers = none ∧ collisionRight.ExtensionMembers = none ∧
    (∀ (jsonMarshal : MarshalFn) (marshal : Option MarshalFn),
      collisionLeft.ToJSON jsonMarshal marshal = collisionRight.ToJSON jsonMarshal marshal ∧
      collisionLeft.ToJSON jsonMarshal marshal =
        (some ("\x7b\"type\":\"x\",\"title\":\"y\",\"title\":\"z\",\"status\":0,"
          ++ "\"detail\":\"\",\"instance\":\"\"\x7d"), none)) ∧
    (¬ ∃ decode : String → HttpError, ∀ (e : HttpError) (jsonMarshal : MarshalFn)
        (data : String), e.ExtensionMembers = none →
        e.ToJSON jsonMarshal none = (some data, none) →
        (decode data).Type_ = e.Type_ ∧ (decode data).Title = e.Title ∧
        (decode data).Status = e.Status ∧ (decode data).Detail = e.Detail ∧
        (decode data).Instance = e.Instance) ∧
    (¬ ∃ (jsonUnmarshal : UnmarshalFn) (unmarshal : Option UnmarshalFn),
      ∀ (e : HttpError) (jsonMarshal : MarshalFn) (data : String), e.ExtensionMembers = none →
        e.ToJSON jsonMarshal none = (some data, none) →
        ∃ he, FromJSON jsonUnmarshal data unmarshal = .ret (some he, none) ∧
          he.Type_ = e.Type_ ∧ he.Title = e.Title ∧ he.Status = e.Status ∧
          he.Detail = e.Detail ∧ he.Instance = e.Instance) := by
  have hff : fixedFields collisionLeft = fixedFields collisionRight := by decide
  have hto : ∀ (jm : MarshalFn) (m : Option MarshalFn),
      collisionLeft.ToJSON jm m = collisionRight.ToJSON jm m ∧
      collisionLeft.ToJSON jm m =
        (some ("\x7b\"type\":\"x\",\"title\":\"y\",\"title\":\"z\",\"status\":0,"
          ++ "\"detail\":\"\",\"instance\":\"\"\x7d"), none) := by
    intro jm m
    have hl : collisionLeft.ToJSON jm m = (some (fixedFields collisionLeft ++ "\x7d"), none) := by
      rw [ToJSON_eq_loop]; rfl
    have hr : collisionRight.ToJSON jm m = (some (fixedFields collisionRight ++ "\x7d"), none) := by
      rw [ToJSON_eq_loop]; rfl
    refine ⟨by rw [hl, hr, hff], ?_⟩
    rw [hl]
    decide
  refine ⟨by decide, by decide, rfl, rfl, rfl, rfl, rfl, hto, ?_, ?_⟩
  · rintro ⟨decode, hdec⟩
    have h1 := hdec collisionLeft exampleMarshal _ rfl (hto exampleMarshal none).2
    have h2 := hdec collisionRight exampleMarshal _ rfl
      ((hto exampleMarshal none).1.symm.trans (hto exampleMarshal none).2)
    have : collisionLeft.Type_ = collisionRight.Type_ := h1.1.symm.trans h2.1
    revert this
    decide
  · rintro ⟨ju, u, hdec⟩
    obtain ⟨he1, hf1, ht1, _⟩ := hdec collisionLeft exampleMarshal _ rfl
      (hto exampleMarshal none).2
    obtain ⟨he2, hf2, ht2, _⟩ := hdec collisionRight exampleMarshal _ rfl
      ((hto exampleMarshal none).1.symm.trans (hto exampleMarshal none).2)
    rw [hf1] at hf2
    simp only [Outcome.ret.injEq, Prod.mk.injEq, Option.some.injEq, and_true] at hf2
    have : collisionLeft.Type_ = collisionRight.Type_ := by
      rw [← ht1, ← ht2, hf2]
    revert this
    decide

end Httperror
